import Mathlib

/-!
Shallow embedding of `lame_walker.py`: a producer/consumer pipeline that
mirrors a music directory tree, transcoding mp3/wav/m4a via the external
tools `lame` and `faad` and copying jpg/png/pdf files.

Filenames are modelled as lists of characters, paths as lists of path
components (the directory walk never produces components containing a
separator).  The file system is modelled as the set of existing file paths
plus the set of existing directory paths.  The external tools are opaque
oracles: for each invocation the environment determines whether the tool
reports success (its exit status) and whether it actually creates its
output file.  The source ignores the reported exit status; both bits are
modelled so that this fact can be stated.
-/

namespace LameWalker

/-- A filename (one path component), as the list of characters of the
Python string. -/
abbrev FName := List Char

/-- A path: the list of its components.  `os.path.join(a, b, fn)` becomes
list append. -/
abbrev Path := List FName

/-- `LAME_EXT = frozenset(['mp3', 'wav'])` -/
def LAME_EXT : List FName := [['m', 'p', '3'], ['w', 'a', 'v']]

/-- `FAAD_EXT = frozenset(['m4a'])` -/
def FAAD_EXT : List FName := [['m', '4', 'a']]

/-- `TRANS_EXT = LAME_EXT | FAAD_EXT` (transcodable extensions) -/
def TRANS_EXT : List FName := LAME_EXT ++ FAAD_EXT

/-- `IMAGE_EXT = frozenset(['jpg', 'png', 'pdf'])` -/
def IMAGE_EXT : List FName := [['j', 'p', 'g'], ['p', 'n', 'g'], ['p', 'd', 'f']]

/-- Index of the last '.' in a filename, if any. -/
def lastDotIdx : FName → Option Nat
  | [] => none
  | c :: rest =>
    match lastDotIdx rest with
    | some i => some (i + 1)
    | none => if c = '.' then some 0 else none

/-- `os.path.splitext` on a single component: split at the last dot,
unless every character before it is itself a dot (leading dots of a
basename never start an extension). -/
def splitext (s : FName) : FName × FName :=
  match lastDotIdx s with
  | none => (s, [])
  | some i =>
    if (s.take i).any (fun c => c ≠ '.') then (s.take i, s.drop i) else (s, [])

/-- `os.path.splitext(fn)[1].lower()[1:]`: lowercased extension without the
leading dot. -/
def extKey (fn : FName) : FName := ((splitext fn).2.map Char.toLower).drop 1

/-- Last component of a path (paths built by the walk are never empty). -/
def lastC (p : Path) : FName := p.getLastD []

/-- Replace the extension-bearing last component: the directory part plus
`splitext(last)[0] ++ suffix`. -/
def sibling (p : Path) (suffix : FName) : Path :=
  p.dropLast ++ [(splitext (lastC p)).1 ++ suffix]

/-- `outf_base + '.wrk'` : the temporary work path for an output path. -/
def wrkPath (p : Path) : Path := sibling p ['.', 'w', 'r', 'k']

/-- `outf_base + '.mp3'` -/
def mp3Path (p : Path) : Path := sibling p ['.', 'm', 'p', '3']

/-- `outf_base + '.wav'` -/
def wavPath (p : Path) : Path := sibling p ['.', 'w', 'a', 'v']

/-- Extension key of a path's last component. -/
def extKeyP (p : Path) : FName := extKey (lastC p)

/-- The file system: which file paths and which directory paths exist. -/
structure FS where
  files : List Path
  dirs : List Path
deriving DecidableEq

/-- `os.path.isfile` -/
def FS.isfile (fs : FS) (p : Path) : Bool := decide (p ∈ fs.files)

/-- `os.path.isdir` -/
def FS.isdir (fs : FS) (p : Path) : Bool := decide (p ∈ fs.dirs)

/-- Creating a file (`lame`/`faad` writing its output, `shutil.copy2`,
rename target).  Overwrites silently, so presence-as-set semantics. -/
def FS.addFile (fs : FS) (p : Path) : FS :=
  if fs.isfile p = true then fs else { fs with files := p :: fs.files }

/-- `os.unlink` / removal of the rename source. -/
def FS.rmFile (fs : FS) (p : Path) : FS :=
  { fs with files := fs.files.filter (fun q => decide (q ≠ p)) }

/-- All prefixes of a path, `os.makedirs` creates every missing one. -/
def prefixesOf (p : Path) : List Path :=
  (List.range (p.length + 1)).map fun k => p.take k

/-- `os.makedirs` -/
def FS.makedirs (fs : FS) (p : Path) : FS :=
  { fs with dirs := prefixesOf p ++ fs.dirs }

/-- Worker error records (`self.errors` entries): per-file transcode
failures and unhandled exceptions caught by the worker loop. -/
inductive Err where
  | transcodeError (infile outfile : Path)
  | unhandledException
deriving DecidableEq

/-- Observable side-effecting operations of a worker, in program order:
directory creation, stale-file removal, tool invocations, copies, work-file
removal and the final rename. -/
inductive Ev where
  | mkdirE (p : Path)
  | rmFailed (p : Path)
  | faadE (inf outf : Path)
  | lameE (inf outf : Path)
  | copyE (inf outf : Path)
  | rmWork (p : Path)
  | renameE (src dst : Path)
deriving DecidableEq

/-- Outcome of one external tool invocation: the reported exit status and
whether the expected output file was actually produced. -/
structure ToolOutcome where
  success : Bool
  creates : Bool
deriving DecidableEq

/-- The opaque external collaborators, per invocation (input, output). -/
structure Env where
  faad : Path → Path → ToolOutcome
  lame : Path → Path → ToolOutcome

/-- The command line flags relevant to the conversion protocol. -/
structure Args where
  dryRun : Bool
  clean : Bool
  numWorkers : Nat
deriving DecidableEq

/-- Result of handling one file (or one batch): file system, transcode
counter, error list, emitted events, and whether an exception escaped. -/
structure FileRes where
  fs : FS
  tdone : Nat
  errs : List Err
  evs : List Ev
  exn : Bool
deriving DecidableEq

/-- `FINALIZE` (lines 539-549): if the temporary work file exists, rename
it onto the final path, otherwise record a transcode failure.  Skipped
entirely on a dry run. -/
def finalizeStep (a : Args) (fs : FS) (td : Nat) (errs : List Err)
    (evs : List Ev) (owrk inf1 outf1 : Path) : FileRes :=
  if a.dryRun = false then
    if fs.isfile owrk = true then
      ⟨(fs.rmFile owrk).addFile outf1, td, errs, evs ++ [Ev.renameE owrk outf1], false⟩
    else
      ⟨fs, td, errs ++ [Err.transcodeError inf1 outf1], evs, false⟩
  else ⟨fs, td, errs, evs, false⟩

/-- The already-done skip of lines 431-437: counter bump for display,
nothing else happens. -/
def skipRes (a : Args) (fs : FS) (td : Nat) (errs : List Err)
    (outf : Path) : FileRes :=
  ⟨fs, (if a.dryRun = false ∧ extKeyP outf ∈ LAME_EXT then td + 1 else td),
   errs, [], false⟩

/-- Stale work file from an earlier failed run (lines 439-448). -/
def staleWrk (a : Args) (fs : FS) (owrk : Path) : FS × List Ev :=
  if fs.isfile owrk = true then
    if a.clean = true ∨ a.dryRun = false then
      (fs.rmFile owrk, [Ev.rmFailed owrk])
    else (fs, [])
  else (fs, [])

/-- Stale demux output from an earlier failed run (lines 450-460). -/
def staleWav (a : Args) (inf : Path) (s : FS × List Ev) (owav : Path) :
    FS × List Ev :=
  if extKeyP inf ∈ FAAD_EXT then
    if s.1.isfile owav = true then
      if a.clean = true ∨ a.dryRun = false then
        (s.1.rmFile owav, s.2 ++ [Ev.rmFailed owav])
      else s
    else s
  else s

/-- Demux m4a to wav, if needed (lines 467-480); also returns the new
`inf` (reassigned to the wav path for m4a files). -/
def demux (a : Args) (env : Env) (inf : Path) (s : FS × List Ev)
    (owav : Path) : FS × List Ev × Path :=
  if extKeyP inf ∈ FAAD_EXT then
    if a.dryRun = false then
      ((if (env.faad inf owav).creates = true then s.1.addFile owav else s.1),
       s.2 ++ [Ev.faadE inf owav], owav)
    else (s.1, s.2, owav)
  else (s.1, s.2, inf)

/-- The `lame` invocation (lines 482-510): writes the work file or not,
bumps the transcode counter.  Nothing invoked on a dry run. -/
def lameStage (a : Args) (env : Env) (fs : FS) (evs : List Ev) (td : Nat)
    (inf1 owrk : Path) : FS × List Ev × Nat :=
  if a.dryRun = false then
    ((if (env.lame inf1 owrk).creates = true then fs.addFile owrk else fs),
     evs ++ [Ev.lameE inf1 owrk], td + 1)
  else (fs, evs, td)

/-- One iteration of the worker's per-file loop
(`ConverterConsumer.run`, lines 425-549).  Returns the state after the
file together with the events emitted for it; `exn = true` when an
uncaught exception escapes (the only unguarded raise is the
`os.unlink(outf_base+'.wav')` at line 523 when the demux output is
missing). -/
def procFile (a : Args) (env : Env) (fs : FS) (td : Nat) (errs : List Err)
    (inf outf : Path) : FileRes :=
  let owrk := wrkPath outf
  let omp3 := mp3Path outf
  let owav := wavPath outf
  -- skip if outfile already exists (lines 431-437)
  if fs.isfile outf = true ∨ fs.isfile omp3 = true then
    skipRes a fs td errs outf
  else
    let s2 := staleWav a inf (staleWrk a fs owrk) owav
    if a.clean = true then ⟨s2.1, td, errs, s2.2, false⟩
    else
      let d := demux a env inf s2 owav
      if extKeyP inf ∈ TRANS_EXT then
        let l := lameStage a env d.1 d.2.1 td d.2.2 owrk
        -- remove the demux work file (lines 512-523); unlink raises if absent
        if extKeyP inf ∈ FAAD_EXT then
          if a.dryRun = false then
            if l.1.isfile owav = true then
              finalizeStep a (l.1.rmFile owav) l.2.2 errs
                (l.2.1 ++ [Ev.rmWork owav]) owrk d.2.2 omp3
            else ⟨l.1, l.2.2, errs, l.2.1 ++ [Ev.rmWork owav], true⟩
          else finalizeStep a l.1 l.2.2 errs l.2.1 owrk d.2.2 omp3
        else finalizeStep a l.1 l.2.2 errs l.2.1 owrk d.2.2 omp3
      else
        if extKeyP inf ∈ IMAGE_EXT then
          -- copy images (lines 525-534)
          if a.dryRun = true then ⟨d.1, td, errs, d.2.1, false⟩
          else
            finalizeStep a (d.1.addFile owrk) td errs
              (d.2.1 ++ [Ev.copyE inf owrk]) owrk inf outf
        else
          -- unrecognized file, do nothing (line 537)
          ⟨d.1, td, errs, d.2.1, false⟩

/-- A unit of work (`filenames` generator item, lines 101-104). -/
structure Batch where
  newpath : Path
  infilenames : List Path
  outfilenames : List Path
deriving DecidableEq

/-- The worker loop over the files of one batch
(`for inf, outf in zip(infilenames, outfilenames)`); stops at the first
escaping exception. -/
def procFiles (a : Args) (env : Env) :
    List (Path × Path) → FS → Nat → List Err → FileRes
  | [], fs, td, errs => ⟨fs, td, errs, [], false⟩
  | (inf, outf) :: rest, fs, td, errs =>
    let r := procFile a env fs td errs inf outf
    if r.exn = true then r
    else
      let rr := procFiles a env rest r.fs r.tdone r.errs
      { rr with evs := r.evs ++ rr.evs }

/-- Worker-local state: file system view, transcode counter, accumulated
errors, emitted events and the finished flag. -/
structure WSt where
  fs : FS
  tdone : Nat
  errors : List Err
  events : List Ev
  finished : Bool
deriving DecidableEq

/-- Output-directory creation for a batch (lines 412-422): only performed
when the directory is missing and neither dry-run nor clean mode is on. -/
def mkdirStep (a : Args) (b : Batch) (st : WSt) : WSt :=
  if st.fs.isdir b.newpath = true then st
  else
    if a.dryRun = true then st
    else
      if a.clean = true then st
      else
        { st with fs := st.fs.makedirs b.newpath,
                  events := st.events ++ [Ev.mkdirE b.newpath] }

/-- Handling of one dequeued batch, including the `except Exception`
handler (lines 551-555) that records an unhandled fault. -/
def procItem (a : Args) (env : Env) (b : Batch) (st : WSt) : WSt :=
  let st1 := mkdirStep a b st
  let r := procFiles a env (b.infilenames.zip b.outfilenames) st1.fs st1.tdone st1.errors
  { fs := r.fs, tdone := r.tdone,
    errors := if r.exn = true then r.errs ++ [Err.unhandledException] else r.errs,
    events := st1.events ++ r.evs,
    finished := st.finished }

/-- Items travelling on the work queue: real batches and the `SENTINEL`
end-of-work marker. -/
inductive WorkItem where
  | batch (b : Batch)
  | sentinel
deriving DecidableEq

/-- Does an item equal the end-of-work marker? -/
def WorkItem.isEOW : WorkItem → Bool
  | .batch _ => false
  | .sentinel => true

/-- The worker main loop (`ConverterConsumer.run`): consume items until
the sentinel, which sets the finished flag and ends the loop. -/
def runWorker (a : Args) (env : Env) : List WorkItem → WSt → WSt
  | [], st => st
  | WorkItem.sentinel :: _, st => { st with finished := true }
  | WorkItem.batch b :: rest, st => runWorker a env rest (procItem a env b st)

/-- One entry of the (external) `os.walk` of the input root: the relative
path of a visited directory and the plain files inside it.  The walk of a
real tree lists every directory exactly once. -/
structure WalkEntry where
  relpath : Path
  files : List FName
deriving DecidableEq

/-- The output of the external directory walk. -/
abbrev WalkList := List WalkEntry

/-- A real walk never reports the same directory twice. -/
def WalkWf (w : WalkList) : Bool := decide ((w.map (fun e => e.relpath)).Nodup)

/-- The batch built for one walk entry (lines 98-104). -/
def toBatch (indir outdir : Path) (e : WalkEntry) : Batch :=
  { newpath := outdir ++ e.relpath,
    infilenames := e.files.map fun fn => (indir ++ e.relpath) ++ [fn],
    outfilenames := e.files.map fun fn => (outdir ++ e.relpath) ++ [fn] }

/-- The `filenames` generator, batch part: one batch per directory that
contains at least one file (lines 88-104). -/
def batchesFn (indir outdir : Path) (w : WalkList) : List Batch :=
  w.filterMap fun e => if e.files.isEmpty then none else some (toBatch indir outdir e)

/-- The full `filenames` generator: all batches, then one sentinel per
worker (lines 88-107). -/
def filenamesStream (indir outdir : Path) (w : WalkList) (numWorkers : Nat) :
    List WorkItem :=
  (batchesFn indir outdir w).map WorkItem.batch ++
    List.replicate numWorkers WorkItem.sentinel

/-- `checkArgs` (lines 73-86): create the output root when missing. -/
def checkArgsFS (outdir : Path) (fs : FS) : FS :=
  if fs.isdir outdir = true then fs else fs.makedirs outdir

/-- Fresh worker state over a file system. -/
def initWSt (fs : FS) : WSt := ⟨fs, 0, [], [], false⟩

/-- One full run: check the roots, enumerate the walk into batches and a
sentinel, and let the worker consume the stream. -/
def pipelineRun (a : Args) (env : Env) (indir outdir : Path) (w : WalkList)
    (fs0 : FS) : WSt :=
  runWorker a env (filenamesStream indir outdir w a.numWorkers)
    (initWSt (checkArgsFS outdir fs0))

/-- The drain loop of `_StateQueue.put` (lines 35-39): get until empty. -/
def drainLoop {α : Type} : List α → List α
  | [] => []
  | _ :: rest => drainLoop rest

/-- `_StateQueue.put` (lines 33-40): clear the queue, then put one item. -/
def statePut {α : Type} (q : List α) (x : α) : List α := drainLoop q ++ [x]

/-- `_StateQueue.get` (lines 42-44): pop the front item. -/
def stateGet {α : Type} : List α → Option α × List α
  | [] => (none, [])
  | x :: rest => (some x, rest)

/-- `main` (line 565): dry runs force a single worker for predictable
output. -/
def mainNumWorkers (a : Args) : Nat := if a.dryRun = true then 1 else a.numWorkers

/-- The consumer processes created by `main` (lines 567-572), one per
effective worker. -/
def mainConsumerCount (a : Args) : Nat := (List.range (mainNumWorkers a)).length

/-! ### Derived auxiliary definitions used by the verification -/

/-- Removing a stale file if it is present (normal-run behaviour of the
stale-cleanup steps). -/
def staleClean (fs : FS) (p : Path) : FS × List Ev :=
  if fs.isfile p = true then (fs.rmFile p, [Ev.rmFailed p]) else (fs, [])

/-- The already-complete check of lines 431-432. -/
def skippable (fs : FS) (outf : Path) : Prop :=
  fs.isfile outf = true ∨ fs.isfile (mp3Path outf) = true

/-- A file the worker acts on: transcodable or copyable. -/
def recognized (inf : Path) : Prop :=
  extKeyP inf ∈ TRANS_EXT ∨ extKeyP inf ∈ IMAGE_EXT

/-- The composed stale cleanup performed for m4a inputs. -/
def stale2 (fs : FS) (outf : Path) : FS × List Ev :=
  ((staleClean (staleClean fs (wrkPath outf)).1 (wavPath outf)).1,
   (staleClean fs (wrkPath outf)).2 ++
     (staleClean (staleClean fs (wrkPath outf)).1 (wavPath outf)).2)

/-- The last character of this filename is not the last character of a
`.wav` or `.wrk` suffixed name. -/
def safeName (fn : FName) : Prop :=
  ∀ c, fn.getLast? = some c → c.toLower ≠ 'v' ∧ c.toLower ≠ 'k'

/-- Safety of a path is safety of its last component. -/
def pathSafe (p : Path) : Prop := safeName (lastC p)

/-- Every existing file is safe from the worker's removals. -/
def INVf (fs : FS) : Prop := ∀ p ∈ fs.files, pathSafe p

/-- Input and output paths of a pair share their filename (true of every
pair the enumerator builds). -/
def goodPairs (prs : List (Path × Path)) : Prop :=
  ∀ pr ∈ prs, lastC pr.1 = lastC pr.2

/-- Every recognized file of the list is already complete. -/
def donePairs (fs : FS) (prs : List (Path × Path)) : Prop :=
  ∀ pr ∈ prs, recognized pr.1 → skippable fs pr.2

/-- The batches a worker actually consumes: everything before its
end-of-work marker. -/
def preSentinel : List WorkItem → List Batch
  | [] => []
  | WorkItem.sentinel :: _ => []
  | WorkItem.batch b :: rest => b :: preSentinel rest

/-- Is an event an external transcoder invocation? -/
def transcodeP : Ev → Bool
  | Ev.faadE _ _ => true
  | Ev.lameE _ _ => true
  | _ => false

/-- Is an event a file copy? -/
def copyP : Ev → Bool
  | Ev.copyE _ _ => true
  | _ => false

/-- Is an event the final tool stage of an attempt at one file? -/
def attemptP : Ev → Bool
  | Ev.lameE _ _ => true
  | Ev.copyE _ _ => true
  | _ => false

/-- Number of external transcoder invocations in an event trace. -/
def transcodeEvCount (evs : List Ev) : Nat := evs.countP transcodeP

/-- Number of file copies in an event trace. -/
def copyEvCount (evs : List Ev) : Nat := evs.countP copyP

/-- Number of per-file work attempts in an event trace. -/
def attemptEvCount (evs : List Ev) : Nat := evs.countP attemptP

/-- Sample input root. -/
def exIn : Path := [['i', 'n']]

/-- Sample output root. -/
def exOut : Path := [['o', 'u', 't']]

/-- Sample filenames. -/
def exMp3 : FName := ['x', '.', 'm', 'p', '3']

/-- Sample wav filename. -/
def exWav : FName := ['x', '.', 'w', 'a', 'v']

/-- Sample m4a filename. -/
def exM4a : FName := ['y', '.', 'm', '4', 'a']

/-- Sample png filename. -/
def exPng : FName := ['z', '.', 'p', 'n', 'g']

/-- A normal (non-dry, non-clean) single-worker configuration. -/
def exArgs : Args := ⟨false, false, 1⟩

/-- External tools that report success and produce their output. -/
def envOKx : Env := ⟨fun _ _ => ⟨true, true⟩, fun _ _ => ⟨true, true⟩⟩

/-- The transcoder reports success but produces no output file. -/
def envLameNoOut : Env := ⟨fun _ _ => ⟨true, true⟩, fun _ _ => ⟨true, false⟩⟩

/-- The transcoder reports failure yet leaves an output file behind. -/
def envLameLiar : Env := ⟨fun _ _ => ⟨true, true⟩, fun _ _ => ⟨false, true⟩⟩

/-- The demuxer fails and produces nothing. -/
def envFaadFail : Env := ⟨fun _ _ => ⟨false, false⟩, fun _ _ => ⟨true, false⟩⟩

/-- A one-directory walk holding a single mp3 file. -/
def exWalk1 : WalkList := [⟨[], [exMp3]⟩]

/-- A walk of a tree whose only subdirectory holds no files at all. -/
def exWalkEmptyDirs : WalkList := [⟨[], []⟩, ⟨[['a']], []⟩]

/-- A two-directory walk used to exercise batch disjointness. -/
def exWalk2 : WalkList := [⟨[], [exMp3]⟩, ⟨[['a']], [exMp3, exPng]⟩]

/-- A batch whose single m4a file makes the worker raise when the failed
demux output is removed. -/
def exFaultBatch : Batch :=
  ⟨exOut, [exIn ++ [exM4a]], [exOut ++ [exM4a]]⟩

/-! ### Basic file-system lemmas -/

@[simp] theorem isfile_iff {fs : FS} {p : Path} :
    fs.isfile p = true ↔ p ∈ fs.files := by
  simp [FS.isfile]

@[simp] theorem isfile_eq_false {fs : FS} {p : Path} :
    fs.isfile p = false ↔ p ∉ fs.files := by
  simp [FS.isfile]

@[simp] theorem isdir_iff {fs : FS} {p : Path} :
    fs.isdir p = true ↔ p ∈ fs.dirs := by
  simp [FS.isdir]

@[simp] theorem addFile_dirs (fs : FS) (p : Path) :
    (fs.addFile p).dirs = fs.dirs := by
  unfold FS.addFile; split <;> rfl

@[simp] theorem rmFile_dirs (fs : FS) (p : Path) :
    (fs.rmFile p).dirs = fs.dirs := rfl

@[simp] theorem makedirs_files (fs : FS) (p : Path) :
    (fs.makedirs p).files = fs.files := rfl

theorem mem_addFile {fs : FS} {p q : Path} :
    p ∈ (fs.addFile q).files ↔ p = q ∨ p ∈ fs.files := by
  unfold FS.addFile
  split
  · rename_i h
    simp only [isfile_iff] at h
    constructor
    · exact Or.inr
    · rintro (rfl | hp)
      · exact h
      · exact hp
  · simp [List.mem_cons]

theorem mem_rmFile {fs : FS} {p q : Path} :
    p ∈ (fs.rmFile q).files ↔ p ∈ fs.files ∧ p ≠ q := by
  simp [FS.rmFile, List.mem_filter]

theorem isdir_makedirs_self (fs : FS) (p : Path) :
    (fs.makedirs p).isdir p = true := by
  simp only [FS.makedirs, isdir_iff, prefixesOf, List.mem_append, List.mem_map]
  exact Or.inl ⟨p.length, List.self_mem_range_succ _, by simp⟩

theorem isdir_makedirs_of {fs : FS} {q : Path} (p : Path)
    (h : fs.isdir q = true) : (fs.makedirs p).isdir q = true := by
  simp only [FS.makedirs, isdir_iff, List.mem_append] at *
  exact Or.inr h

theorem staleClean_sub {fs : FS} {p q : Path}
    (h : q ∈ (staleClean fs p).1.files) : q ∈ fs.files := by
  unfold staleClean at h
  split at h
  · exact (mem_rmFile.mp h).1
  · exact h

theorem staleClean_post (fs : FS) (p : Path) :
    (staleClean fs p).1.isfile p = false := by
  unfold staleClean
  split
  · simp [mem_rmFile]
  · rename_i h
    simpa using h

theorem staleClean_other {fs : FS} {p q : Path} (h : q ≠ p) :
    (staleClean fs p).1.isfile q = fs.isfile q := by
  unfold staleClean
  split
  · show (fs.rmFile p).isfile q = fs.isfile q
    simp only [FS.isfile]
    exact decide_eq_decide.mpr (by simp [FS.rmFile, List.mem_filter, h])
  · rfl

@[simp] theorem staleClean_dirs (fs : FS) (p : Path) :
    (staleClean fs p).1.dirs = fs.dirs := by
  unfold staleClean; split <;> rfl

/-! ### The per-file step on a normal run -/

theorem faad_mem_trans {x : FName} (h : x ∈ FAAD_EXT) : x ∈ TRANS_EXT := by
  unfold TRANS_EXT
  exact List.mem_append.mpr (Or.inr h)

/-! ### Stage behaviour on a normal run -/

theorem staleWrk_normal {a : Args} (hd : a.dryRun = false) (fs : FS)
    (p : Path) : staleWrk a fs p = staleClean fs p := by
  unfold staleWrk staleClean
  simp [hd]

theorem staleWav_normal {a : Args} (hd : a.dryRun = false) (inf : Path)
    (s : FS × List Ev) (p : Path) :
    staleWav a inf s p =
      if extKeyP inf ∈ FAAD_EXT then
        ((staleClean s.1 p).1, s.2 ++ (staleClean s.1 p).2)
      else s := by
  unfold staleWav staleClean
  by_cases hF : extKeyP inf ∈ FAAD_EXT
  · by_cases hw : s.1.isfile p = true <;> simp [hF, hw, hd]
  · simp [hF]

theorem staleWav_not_faad {a : Args} {inf : Path} (hF : extKeyP inf ∉ FAAD_EXT)
    (s : FS × List Ev) (p : Path) : staleWav a inf s p = s := by
  unfold staleWav
  simp [hF]

theorem demux_not_faad {a : Args} {env : Env} {inf : Path}
    (hF : extKeyP inf ∉ FAAD_EXT) (s : FS × List Ev) (p : Path) :
    demux a env inf s p = (s.1, s.2, inf) := by
  unfold demux
  simp [hF]

theorem demux_faad {a : Args} {env : Env} {inf : Path}
    (hF : extKeyP inf ∈ FAAD_EXT) (hd : a.dryRun = false) (s : FS × List Ev)
    (p : Path) :
    demux a env inf s p =
      ((if (env.faad inf p).creates = true then s.1.addFile p else s.1),
       s.2 ++ [Ev.faadE inf p], p) := by
  unfold demux
  simp [hF, hd]

theorem lameStage_normal {a : Args} (hd : a.dryRun = false) (env : Env)
    (fs : FS) (evs : List Ev) (td : Nat) (inf1 owrk : Path) :
    lameStage a env fs evs td inf1 owrk =
      ((if (env.lame inf1 owrk).creates = true then fs.addFile owrk else fs),
       evs ++ [Ev.lameE inf1 owrk], td + 1) := by
  unfold lameStage
  simp [hd]

/-! ### Distinctness of the derived sibling paths -/

theorem sibling_ne {p : Path} {s1 s2 : FName} (h : s1 ≠ s2) :
    sibling p s1 ≠ sibling p s2 := by
  unfold sibling
  intro he
  obtain ⟨-, h2⟩ := List.append_inj' he (by simp)
  have h3 : (splitext (lastC p)).1 ++ s1 = (splitext (lastC p)).1 ++ s2 :=
    List.cons.inj h2 |>.1
  exact h (List.append_cancel_left h3)

theorem wrk_ne_wav (p : Path) : wrkPath p ≠ wavPath p :=
  sibling_ne (by decide)

theorem wav_ne_wrk (p : Path) : wavPath p ≠ wrkPath p :=
  (wrk_ne_wav p).symm

theorem mp3_ne_wrk (p : Path) : mp3Path p ≠ wrkPath p :=
  sibling_ne (by decide)

theorem mp3_ne_wav (p : Path) : mp3Path p ≠ wavPath p :=
  sibling_ne (by decide)

theorem image_not_trans {x : FName} (h : x ∈ IMAGE_EXT) : x ∉ TRANS_EXT := by
  simp only [IMAGE_EXT, List.mem_cons, List.not_mem_nil, or_false] at h
  rcases h with rfl | rfl | rfl <;> decide

/-! ### Path lemmas: the behaviour of one per-file step, per branch -/

theorem procFile_skip {a : Args} {env : Env} {fs : FS} {td : Nat}
    {errs : List Err} {inf outf : Path}
    (h : fs.isfile outf = true ∨ fs.isfile (mp3Path outf) = true) :
    procFile a env fs td errs inf outf = skipRes a fs td errs outf := by
  simp only [procFile]
  rw [if_pos h]

theorem procFile_unrec {a : Args} {env : Env} {fs : FS} {td : Nat}
    {errs : List Err} {inf outf : Path}
    (hd : a.dryRun = false) (hc : a.clean = false)
    (hs1 : fs.isfile outf = false) (hs2 : fs.isfile (mp3Path outf) = false)
    (hT : extKeyP inf ∉ TRANS_EXT) (hI : extKeyP inf ∉ IMAGE_EXT) :
    procFile a env fs td errs inf outf =
      ⟨(staleClean fs (wrkPath outf)).1, td, errs,
       (staleClean fs (wrkPath outf)).2, false⟩ := by
  have hF : extKeyP inf ∉ FAAD_EXT := fun h => hT (faad_mem_trans h)
  simp only [procFile]
  rw [if_neg (by simp [hs1, hs2])]
  rw [staleWrk_normal hd, staleWav_not_faad hF, if_neg (by simp [hc]),
    demux_not_faad hF, if_neg hT, if_neg hI]

theorem procFile_lame {a : Args} {env : Env} {fs : FS} {td : Nat}
    {errs : List Err} {inf outf : Path}
    (hd : a.dryRun = false) (hc : a.clean = false)
    (hs1 : fs.isfile outf = false) (hs2 : fs.isfile (mp3Path outf) = false)
    (hT : extKeyP inf ∈ TRANS_EXT) (hF : extKeyP inf ∉ FAAD_EXT) :
    procFile a env fs td errs inf outf =
      if (env.lame inf (wrkPath outf)).creates = true then
        ⟨(((staleClean fs (wrkPath outf)).1.addFile (wrkPath outf)).rmFile
            (wrkPath outf)).addFile (mp3Path outf),
         td + 1, errs,
         (staleClean fs (wrkPath outf)).2 ++ [Ev.lameE inf (wrkPath outf)] ++
           [Ev.renameE (wrkPath outf) (mp3Path outf)],
         false⟩
      else
        ⟨(staleClean fs (wrkPath outf)).1, td + 1,
         errs ++ [Err.transcodeError inf (mp3Path outf)],
         (staleClean fs (wrkPath outf)).2 ++ [Ev.lameE inf (wrkPath outf)],
         false⟩ := by
  simp only [procFile]
  rw [if_neg (by simp [hs1, hs2])]
  rw [staleWrk_normal hd, staleWav_not_faad hF, if_neg (by simp [hc]),
    demux_not_faad hF, if_pos hT, lameStage_normal hd, if_neg hF]
  unfold finalizeStep
  by_cases hcr : (env.lame inf (wrkPath outf)).creates = true
  · rw [if_pos hcr, if_pos hcr, if_pos hd,
      if_pos (by simp [mem_addFile] :
        ((staleClean fs (wrkPath outf)).1.addFile (wrkPath outf)).isfile
          (wrkPath outf) = true)]
  · rw [if_neg hcr, if_neg hcr, if_pos hd,
      if_neg (by simp [staleClean_post] :
        ¬(staleClean fs (wrkPath outf)).1.isfile (wrkPath outf) = true)]

theorem stale2_no_wrk (fs : FS) (outf : Path) :
    wrkPath outf ∉ (stale2 fs outf).1.files := by
  intro h
  have h2 := staleClean_sub h
  have h3 := staleClean_post fs (wrkPath outf)
  rw [isfile_eq_false] at h3
  exact h3 h2

theorem stale2_no_wav (fs : FS) (outf : Path) :
    wavPath outf ∉ (stale2 fs outf).1.files := by
  have h3 := staleClean_post (staleClean fs (wrkPath outf)).1 (wavPath outf)
  rw [isfile_eq_false] at h3
  exact h3

theorem procFile_m4a_ok {a : Args} {env : Env} {fs : FS} {td : Nat}
    {errs : List Err} {inf outf : Path}
    (hd : a.dryRun = false) (hc : a.clean = false)
    (hs1 : fs.isfile outf = false) (hs2 : fs.isfile (mp3Path outf) = false)
    (hF : extKeyP inf ∈ FAAD_EXT)
    (hw : (env.faad inf (wavPath outf)).creates = true)
    (hcr : (env.lame (wavPath outf) (wrkPath outf)).creates = true) :
    procFile a env fs td errs inf outf =
      ⟨((((((stale2 fs outf).1.addFile (wavPath outf)).addFile
          (wrkPath outf)).rmFile (wavPath outf)).rmFile
          (wrkPath outf)).addFile (mp3Path outf)),
       td + 1, errs,
       (stale2 fs outf).2 ++ [Ev.faadE inf (wavPath outf)] ++
         [Ev.lameE (wavPath outf) (wrkPath outf)] ++
         [Ev.rmWork (wavPath outf)] ++
         [Ev.renameE (wrkPath outf) (mp3Path outf)],
       false⟩ := by
  have hT := faad_mem_trans hF
  simp only [procFile]
  rw [if_neg (by simp [hs1, hs2])]
  rw [staleWrk_normal hd, staleWav_normal hd, if_pos hF, if_neg (by simp [hc]),
    demux_faad hF hd, if_pos hT, lameStage_normal hd, if_pos hF, if_pos hd]
  dsimp only
  simp [stale2, finalizeStep, hd, hw, hcr, mem_addFile, mem_rmFile,
    wrk_ne_wav outf, wav_ne_wrk outf]

theorem procFile_m4a_lame_fail {a : Args} {env : Env} {fs : FS} {td : Nat}
    {errs : List Err} {inf outf : Path}
    (hd : a.dryRun = false) (hc : a.clean = false)
    (hs1 : fs.isfile outf = false) (hs2 : fs.isfile (mp3Path outf) = false)
    (hF : extKeyP inf ∈ FAAD_EXT)
    (hw : (env.faad inf (wavPath outf)).creates = true)
    (hcr : (env.lame (wavPath outf) (wrkPath outf)).creates = false) :
    procFile a env fs td errs inf outf =
      ⟨((stale2 fs outf).1.addFile (wavPath outf)).rmFile (wavPath outf),
       td + 1, errs ++ [Err.transcodeError (wavPath outf) (mp3Path outf)],
       (stale2 fs outf).2 ++ [Ev.faadE inf (wavPath outf)] ++
         [Ev.lameE (wavPath outf) (wrkPath outf)] ++
         [Ev.rmWork (wavPath outf)],
       false⟩ := by
  have hT := faad_mem_trans hF
  have hnw : wrkPath outf ∉
      (staleClean (staleClean fs (wrkPath outf)).1 (wavPath outf)).1.files :=
    stale2_no_wrk fs outf
  simp only [procFile]
  rw [if_neg (by simp [hs1, hs2])]
  rw [staleWrk_normal hd, staleWav_normal hd, if_pos hF, if_neg (by simp [hc]),
    demux_faad hF hd, if_pos hT, lameStage_normal hd, if_pos hF, if_pos hd]
  dsimp only
  simp [stale2, finalizeStep, hd, hw, hcr, mem_addFile, mem_rmFile,
    wrk_ne_wav outf, wav_ne_wrk outf, hnw]

theorem procFile_m4a_faad_fail {a : Args} {env : Env} {fs : FS} {td : Nat}
    {errs : List Err} {inf outf : Path}
    (hd : a.dryRun = false) (hc : a.clean = false)
    (hs1 : fs.isfile outf = false) (hs2 : fs.isfile (mp3Path outf) = false)
    (hF : extKeyP inf ∈ FAAD_EXT)
    (hw : (env.faad inf (wavPath outf)).creates = false) :
    procFile a env fs td errs inf outf =
      ⟨(if (env.lame (wavPath outf) (wrkPath outf)).creates = true then
          (stale2 fs outf).1.addFile (wrkPath outf)
        else (stale2 fs outf).1),
       td + 1, errs,
       (stale2 fs outf).2 ++ [Ev.faadE inf (wavPath outf)] ++
         [Ev.lameE (wavPath outf) (wrkPath outf)] ++
         [Ev.rmWork (wavPath outf)],
       true⟩ := by
  have hT := faad_mem_trans hF
  have hnv : wavPath outf ∉
      (staleClean (staleClean fs (wrkPath outf)).1 (wavPath outf)).1.files :=
    stale2_no_wav fs outf
  simp only [procFile]
  rw [if_neg (by simp [hs1, hs2])]
  rw [staleWrk_normal hd, staleWav_normal hd, if_pos hF, if_neg (by simp [hc]),
    demux_faad hF hd, if_pos hT, lameStage_normal hd, if_pos hF, if_pos hd]
  dsimp only
  by_cases hcr : (env.lame (wavPath outf) (wrkPath outf)).creates = true <;>
    simp [stale2, hw, hcr, mem_addFile, wav_ne_wrk outf, hnv]

theorem procFile_image {a : Args} {env : Env} {fs : FS} {td : Nat}
    {errs : List Err} {inf outf : Path}
    (hd : a.dryRun = false) (hc : a.clean = false)
    (hs1 : fs.isfile outf = false) (hs2 : fs.isfile (mp3Path outf) = false)
    (hI : extKeyP inf ∈ IMAGE_EXT) :
    procFile a env fs td errs inf outf =
      ⟨(((staleClean fs (wrkPath outf)).1.addFile (wrkPath outf)).rmFile
          (wrkPath outf)).addFile outf,
       td, errs,
       (staleClean fs (wrkPath outf)).2 ++ [Ev.copyE inf (wrkPath outf)] ++
         [Ev.renameE (wrkPath outf) outf],
       false⟩ := by
  have hT : extKeyP inf ∉ TRANS_EXT := image_not_trans hI
  have hF : extKeyP inf ∉ FAAD_EXT := fun h => hT (faad_mem_trans h)
  simp only [procFile]
  rw [if_neg (by simp [hs1, hs2])]
  rw [staleWrk_normal hd, staleWav_not_faad hF, if_neg (by simp [hc]),
    demux_not_faad hF, if_neg hT, if_pos hI, if_neg (by simp [hd])]
  dsimp only
  simp [finalizeStep, hd, mem_addFile]

/-! ### Names the worker never removes

Every removal the worker ever performs (stale cleanup, demux work file,
rename source) targets a path whose last component ends in the literal
suffix `.wav` or `.wrk`.  A path whose last character does not lower-case
to `v` or `k` is therefore never removed. -/

theorem lastC_concat (q : Path) (fn : FName) : lastC (q ++ [fn]) = fn :=
  List.getLastD_concat _ _ _

theorem lastC_sibling (p : Path) (suf : FName) :
    lastC (sibling p suf) = (splitext (lastC p)).1 ++ suf :=
  lastC_concat _ _

theorem safeName_of_getLast {fn : FName} {c : Char}
    (h : fn.getLast? = some c) (h1 : c.toLower ≠ 'v') (h2 : c.toLower ≠ 'k') :
    safeName fn := by
  intro c' hc'
  rw [h] at hc'
  obtain rfl : c = c' := by injection hc'
  exact ⟨h1, h2⟩

theorem safeName_mp3 (b : FName) : safeName (b ++ ['.', 'm', 'p', '3']) :=
  safeName_of_getLast (c := '3')
    (by rw [List.getLast?_append_of_ne_nil _ (by decide)]; rfl)
    (by decide) (by decide)

theorem not_safeName_wav (b : FName) : ¬ safeName (b ++ ['.', 'w', 'a', 'v']) := by
  intro h
  have := h 'v' (by rw [List.getLast?_append_of_ne_nil _ (by decide)]; rfl)
  exact this.1 (by decide)

theorem not_safeName_wrk (b : FName) : ¬ safeName (b ++ ['.', 'w', 'r', 'k']) := by
  intro h
  have := h 'k' (by rw [List.getLast?_append_of_ne_nil _ (by decide)]; rfl)
  exact this.2 (by decide)

theorem pathSafe_mp3Path (p : Path) : pathSafe (mp3Path p) := by
  unfold pathSafe mp3Path
  rw [lastC_sibling]
  exact safeName_mp3 _

theorem not_pathSafe_wavPath (p : Path) : ¬ pathSafe (wavPath p) := by
  unfold pathSafe wavPath
  rw [lastC_sibling]
  exact not_safeName_wav _

theorem not_pathSafe_wrkPath (p : Path) : ¬ pathSafe (wrkPath p) := by
  unfold pathSafe wrkPath
  rw [lastC_sibling]
  exact not_safeName_wrk _

theorem ne_of_pathSafe {w p : Path} (hw : pathSafe w) (hp : ¬ pathSafe p) :
    w ≠ p := fun he => hp (he ▸ hw)

theorem splitext_snd_eq (s : FName) :
    (splitext s).2 = [] ∨ ∃ i, (splitext s).2 = s.drop i := by
  unfold splitext
  cases h : lastDotIdx s with
  | none => exact Or.inl rfl
  | some i =>
    dsimp only
    split
    · exact Or.inr ⟨i, rfl⟩
    · exact Or.inl rfl

theorem safeName_of_extKey_image {fn : FName} (h : extKey fn ∈ IMAGE_EXT) :
    safeName fn := by
  rcases splitext_snd_eq fn with he | ⟨i, he⟩
  · rw [extKey, he] at h
    simp [IMAGE_EXT] at h
  · rw [extKey, he, List.map_drop, List.drop_drop, ← List.map_drop] at h
    intro c hc
    have hne : fn.drop (i + 1) ≠ [] := by
      intro h0
      rw [h0] at h
      simp [IMAGE_EXT] at h
    have hlast : fn.getLast? = (fn.drop (i + 1)).getLast? := by
      conv_lhs => rw [← List.take_append_drop (i + 1) fn]
      exact List.getLast?_append_of_ne_nil _ hne
    have hmap := List.getLast?_map Char.toLower (fn.drop (i + 1))
    rw [hc] at hlast
    rw [← hlast] at hmap
    simp only [IMAGE_EXT, List.mem_cons, List.not_mem_nil, or_false] at h
    rcases h with h3 | h3 | h3 <;>
      (rw [h3] at hmap
       simp only [Option.map_some'] at hmap
       have hg := Option.some.inj hmap
       constructor <;> (rw [← hg]; decide))

/-- The output path of a copyable file is never a removal target. -/
theorem pathSafe_image_outf {inf outf : Path} (hfn : lastC inf = lastC outf)
    (hI : extKeyP inf ∈ IMAGE_EXT) : pathSafe outf := by
  unfold pathSafe
  rw [← hfn]
  exact safeName_of_extKey_image hI

theorem mem_staleClean_of {fs : FS} {p w : Path} (hne : w ≠ p)
    (h : w ∈ fs.files) : w ∈ (staleClean fs p).1.files := by
  unfold staleClean
  split
  · exact mem_rmFile.mpr ⟨h, hne⟩
  · exact h

/-! ### Per-file invariants of a normal run -/

theorem append_singleton_ne {α : Type} (l : List α) (x : α) : l ++ [x] ≠ l := by
  intro h
  have := congrArg List.length h
  simp at this

theorem bool_eq_false {b : Bool} (h : ¬ b = true) : b = false := by
  cases b
  · rfl
  · exact absurd rfl h

theorem procFile_persist {a : Args} {env : Env} {fs : FS} {td : Nat}
    {errs : List Err} {inf outf : Path}
    (hd : a.dryRun = false) (hc : a.clean = false) {w : Path}
    (hw : pathSafe w) (hmem : w ∈ fs.files) :
    w ∈ (procFile a env fs td errs inf outf).fs.files := by
  have h1 : w ≠ wavPath outf := ne_of_pathSafe hw (not_pathSafe_wavPath outf)
  have h2 : w ≠ wrkPath outf := ne_of_pathSafe hw (not_pathSafe_wrkPath outf)
  by_cases hs : fs.isfile outf = true ∨ fs.isfile (mp3Path outf) = true
  · rw [procFile_skip hs]
    exact hmem
  · simp only [not_or, Bool.not_eq_true] at hs
    obtain ⟨hs1, hs2⟩ := hs
    have hm2 : w ∈ (staleClean fs (wrkPath outf)).1.files :=
      mem_staleClean_of h2 hmem
    have hm3 : w ∈ (staleClean (staleClean fs (wrkPath outf)).1
        (wavPath outf)).1.files := mem_staleClean_of h1 hm2
    by_cases hF : extKeyP inf ∈ FAAD_EXT
    · by_cases hwC : (env.faad inf (wavPath outf)).creates = true
      · by_cases hcr : (env.lame (wavPath outf) (wrkPath outf)).creates = true
        · rw [procFile_m4a_ok hd hc hs1 hs2 hF hwC hcr]
          simp [stale2, mem_addFile, mem_rmFile, h1, h2, hm3]
        · rw [procFile_m4a_lame_fail hd hc hs1 hs2 hF hwC (bool_eq_false hcr)]
          simp [stale2, mem_addFile, mem_rmFile, h1, h2, hm3]
      · rw [procFile_m4a_faad_fail hd hc hs1 hs2 hF (bool_eq_false hwC)]
        by_cases hcr : (env.lame (wavPath outf) (wrkPath outf)).creates = true <;>
          simp [stale2, hcr, mem_addFile, h2, hm3]
    · by_cases hT : extKeyP inf ∈ TRANS_EXT
      · rw [procFile_lame hd hc hs1 hs2 hT hF]
        by_cases hcr : (env.lame inf (wrkPath outf)).creates = true <;>
          simp [hcr, mem_addFile, mem_rmFile, h2, hm2]
      · by_cases hI : extKeyP inf ∈ IMAGE_EXT
        · rw [procFile_image hd hc hs1 hs2 hI]
          simp [mem_addFile, mem_rmFile, h2, hm2]
        · rw [procFile_unrec hd hc hs1 hs2 hT hI]
          exact hm2

theorem procFile_dirs {a : Args} {env : Env} {fs : FS} {td : Nat}
    {errs : List Err} {inf outf : Path}
    (hd : a.dryRun = false) (hc : a.clean = false) :
    (procFile a env fs td errs inf outf).fs.dirs = fs.dirs := by
  by_cases hs : fs.isfile outf = true ∨ fs.isfile (mp3Path outf) = true
  · rw [procFile_skip hs]
    rfl
  · simp only [not_or, Bool.not_eq_true] at hs
    obtain ⟨hs1, hs2⟩ := hs
    by_cases hF : extKeyP inf ∈ FAAD_EXT
    · by_cases hwC : (env.faad inf (wavPath outf)).creates = true
      · by_cases hcr : (env.lame (wavPath outf) (wrkPath outf)).creates = true
        · rw [procFile_m4a_ok hd hc hs1 hs2 hF hwC hcr]
          simp [stale2]
        · rw [procFile_m4a_lame_fail hd hc hs1 hs2 hF hwC (bool_eq_false hcr)]
          simp [stale2]
      · rw [procFile_m4a_faad_fail hd hc hs1 hs2 hF (bool_eq_false hwC)]
        by_cases hcr : (env.lame (wavPath outf) (wrkPath outf)).creates = true <;>
          simp [stale2, hcr]
    · by_cases hT : extKeyP inf ∈ TRANS_EXT
      · rw [procFile_lame hd hc hs1 hs2 hT hF]
        by_cases hcr : (env.lame inf (wrkPath outf)).creates = true <;>
          simp [hcr]
      · by_cases hI : extKeyP inf ∈ IMAGE_EXT
        · rw [procFile_image hd hc hs1 hs2 hI]
          simp
        · rw [procFile_unrec hd hc hs1 hs2 hT hI]
          simp

theorem procFile_errs {a : Args} {env : Env} {fs : FS} {td : Nat}
    {errs : List Err} {inf outf : Path}
    (hd : a.dryRun = false) (hc : a.clean = false) :
    ∃ d, (procFile a env fs td errs inf outf).errs = errs ++ d := by
  by_cases hs : fs.isfile outf = true ∨ fs.isfile (mp3Path outf) = true
  · rw [procFile_skip hs]
    exact ⟨[], by simp [skipRes]⟩
  · simp only [not_or, Bool.not_eq_true] at hs
    obtain ⟨hs1, hs2⟩ := hs
    by_cases hF : extKeyP inf ∈ FAAD_EXT
    · by_cases hwC : (env.faad inf (wavPath outf)).creates = true
      · by_cases hcr : (env.lame (wavPath outf) (wrkPath outf)).creates = true
        · rw [procFile_m4a_ok hd hc hs1 hs2 hF hwC hcr]
          exact ⟨[], by simp⟩
        · rw [procFile_m4a_lame_fail hd hc hs1 hs2 hF hwC (bool_eq_false hcr)]
          exact ⟨[Err.transcodeError (wavPath outf) (mp3Path outf)], rfl⟩
      · rw [procFile_m4a_faad_fail hd hc hs1 hs2 hF (bool_eq_false hwC)]
        exact ⟨[], by simp⟩
    · by_cases hT : extKeyP inf ∈ TRANS_EXT
      · rw [procFile_lame hd hc hs1 hs2 hT hF]
        by_cases hcr : (env.lame inf (wrkPath outf)).creates = true
        · rw [if_pos hcr]
          exact ⟨[], by simp⟩
        · rw [if_neg hcr]
          exact ⟨[Err.transcodeError inf (mp3Path outf)], rfl⟩
      · by_cases hI : extKeyP inf ∈ IMAGE_EXT
        · rw [procFile_image hd hc hs1 hs2 hI]
          exact ⟨[], by simp⟩
        · rw [procFile_unrec hd hc hs1 hs2 hT hI]
          exact ⟨[], by simp⟩

theorem procFile_no_err {a : Args} {env : Env} {fs : FS} {td : Nat}
    {errs : List Err} {inf outf : Path}
    (hd : a.dryRun = false) (hc : a.clean = false)
    (hfn : lastC inf = lastC outf) (hinv : INVf fs)
    (herr : (procFile a env fs td errs inf outf).errs = errs)
    (hexn : (procFile a env fs td errs inf outf).exn = false) :
    INVf (procFile a env fs td errs inf outf).fs ∧
      (recognized inf →
        (procFile a env fs td errs inf outf).fs.isfile outf = true ∨
        (procFile a env fs td errs inf outf).fs.isfile (mp3Path outf) = true) := by
  by_cases hs : fs.isfile outf = true ∨ fs.isfile (mp3Path outf) = true
  · rw [procFile_skip hs]
    exact ⟨hinv, fun _ => hs⟩
  · simp only [not_or, Bool.not_eq_true] at hs
    obtain ⟨hs1, hs2⟩ := hs
    by_cases hF : extKeyP inf ∈ FAAD_EXT
    · by_cases hwC : (env.faad inf (wavPath outf)).creates = true
      · by_cases hcr : (env.lame (wavPath outf) (wrkPath outf)).creates = true
        · rw [procFile_m4a_ok hd hc hs1 hs2 hF hwC hcr] at herr hexn ⊢
          constructor
          · intro p hp
            rcases mem_addFile.mp hp with rfl | hp2
            · exact pathSafe_mp3Path outf
            · obtain ⟨hp3, hne_wrk⟩ := mem_rmFile.mp hp2
              obtain ⟨hp4, hne_wav⟩ := mem_rmFile.mp hp3
              rcases mem_addFile.mp hp4 with rfl | hp5
              · exact absurd rfl hne_wrk
              · rcases mem_addFile.mp hp5 with rfl | hp6
                · exact absurd rfl hne_wav
                · exact hinv p (staleClean_sub (staleClean_sub hp6))
          · intro _
            exact Or.inr (by simp [mem_addFile])
        · rw [procFile_m4a_lame_fail hd hc hs1 hs2 hF hwC (bool_eq_false hcr)]
            at herr
          exact absurd herr (append_singleton_ne _ _)
      · rw [procFile_m4a_faad_fail hd hc hs1 hs2 hF (bool_eq_false hwC)] at hexn
        exact absurd hexn (by simp)
    · by_cases hT : extKeyP inf ∈ TRANS_EXT
      · rw [procFile_lame hd hc hs1 hs2 hT hF] at herr ⊢
        by_cases hcr : (env.lame inf (wrkPath outf)).creates = true
        · rw [if_pos hcr]
          constructor
          · intro p hp
            rcases mem_addFile.mp hp with rfl | hp2
            · exact pathSafe_mp3Path outf
            · obtain ⟨hp3, hne⟩ := mem_rmFile.mp hp2
              rcases mem_addFile.mp hp3 with rfl | hp4
              · exact absurd rfl hne
              · exact hinv p (staleClean_sub hp4)
          · intro _
            exact Or.inr (by simp [mem_addFile])
        · rw [if_neg hcr] at herr
          exact absurd herr (append_singleton_ne _ _)
      · by_cases hI : extKeyP inf ∈ IMAGE_EXT
        · rw [procFile_image hd hc hs1 hs2 hI]
          constructor
          · intro p hp
            rcases mem_addFile.mp hp with rfl | hp2
            · exact pathSafe_image_outf hfn hI
            · obtain ⟨hp3, hne⟩ := mem_rmFile.mp hp2
              rcases mem_addFile.mp hp3 with rfl | hp4
              · exact absurd rfl hne
              · exact hinv p (staleClean_sub hp4)
          · intro _
            exact Or.inl (by simp [mem_addFile])
        · rw [procFile_unrec hd hc hs1 hs2 hT hI]
          refine ⟨fun p hp => hinv p (staleClean_sub hp), fun hr => ?_⟩
          exact absurd hr (by simp [recognized, hT, hI])

/-- On a file system satisfying the invariant in which every recognized
file is already complete, one per-file step does nothing at all. -/
theorem procFile_noop {a : Args} {env : Env} {fs : FS} {td : Nat}
    {errs : List Err} {inf outf : Path}
    (hd : a.dryRun = false) (hc : a.clean = false)
    (hinv : INVf fs) (hdone : recognized inf → skippable fs outf) :
    (procFile a env fs td errs inf outf).fs = fs ∧
    (procFile a env fs td errs inf outf).evs = [] ∧
    (procFile a env fs td errs inf outf).errs = errs ∧
    (procFile a env fs td errs inf outf).exn = false := by
  by_cases hs : fs.isfile outf = true ∨ fs.isfile (mp3Path outf) = true
  · rw [procFile_skip hs]
    exact ⟨rfl, rfl, rfl, rfl⟩
  · have hrec : ¬ recognized inf := fun hr => hs (hdone hr)
    have hT : extKeyP inf ∉ TRANS_EXT := fun h => hrec (Or.inl h)
    have hI : extKeyP inf ∉ IMAGE_EXT := fun h => hrec (Or.inr h)
    simp only [not_or, Bool.not_eq_true] at hs
    obtain ⟨hs1, hs2⟩ := hs
    rw [procFile_unrec hd hc hs1 hs2 hT hI]
    have hwrk : ¬ fs.isfile (wrkPath outf) = true := by
      simp only [isfile_iff]
      intro hmem
      exact (not_pathSafe_wrkPath outf) (hinv _ hmem)
    unfold staleClean
    rw [if_neg hwrk]
    exact ⟨rfl, rfl, rfl, rfl⟩

/-! ### The batch loop -/

theorem procFiles_errs {a : Args} {env : Env}
    (hd : a.dryRun = false) (hc : a.clean = false) :
    ∀ (prs : List (Path × Path)) (fs : FS) (td : Nat) (errs : List Err),
      ∃ d, (procFiles a env prs fs td errs).errs = errs ++ d := by
  intro prs
  induction prs with
  | nil => exact fun fs td errs => ⟨[], by simp [procFiles]⟩
  | cons pr rest ih =>
    intro fs td errs
    obtain ⟨inf, outf⟩ := pr
    simp only [procFiles]
    by_cases hexn : (procFile a env fs td errs inf outf).exn = true
    · rw [if_pos hexn]
      exact procFile_errs hd hc
    · rw [if_neg hexn]
      obtain ⟨d1, h1⟩ := @procFile_errs a env fs td errs inf outf hd hc
      obtain ⟨d2, h2⟩ := ih (procFile a env fs td errs inf outf).fs
        (procFile a env fs td errs inf outf).tdone
        (procFile a env fs td errs inf outf).errs
      refine ⟨d1 ++ d2, ?_⟩
      dsimp only
      rw [h2, h1, List.append_assoc]

theorem procFiles_no_err {a : Args} {env : Env}
    (hd : a.dryRun = false) (hc : a.clean = false) :
    ∀ (prs : List (Path × Path)) (fs : FS) (td : Nat) (errs : List Err),
      INVf fs → goodPairs prs →
      (procFiles a env prs fs td errs).errs = errs →
      (procFiles a env prs fs td errs).exn = false →
      INVf (procFiles a env prs fs td errs).fs ∧
      donePairs (procFiles a env prs fs td errs).fs prs ∧
      (∀ w, pathSafe w → w ∈ fs.files →
        w ∈ (procFiles a env prs fs td errs).fs.files) ∧
      (procFiles a env prs fs td errs).fs.dirs = fs.dirs := by
  intro prs
  induction prs with
  | nil =>
    intro fs td errs hinv _ _ _
    exact ⟨hinv, fun pr hpr => absurd hpr (List.not_mem_nil _),
      fun w _ hw => hw, rfl⟩
  | cons pr rest ih =>
    intro fs td errs hinv hgp herr hexn
    obtain ⟨inf, outf⟩ := pr
    simp only [procFiles] at herr hexn ⊢
    by_cases hexn1 : (procFile a env fs td errs inf outf).exn = true
    · rw [if_pos hexn1] at hexn
      exact absurd hexn (by simp [hexn1])
    · rw [if_neg hexn1] at herr hexn ⊢
      set r := procFile a env fs td errs inf outf with hr
      obtain ⟨d1, h1⟩ := @procFile_errs a env fs td errs inf outf hd hc
      obtain ⟨d2, h2⟩ := procFiles_errs hd hc rest r.fs r.tdone r.errs
      have herr0 : errs ++ (d1 ++ d2) = errs ++ [] := by
        simp only [← List.append_assoc, ← h1, ← h2]
        simpa using herr
      have hd12 := List.append_cancel_left herr0
      have hd1 : d1 = [] := (List.append_eq_nil.mp hd12).1
      have hd2 : d2 = [] := (List.append_eq_nil.mp hd12).2
      have herr1 : r.errs = errs := by rw [h1, hd1, List.append_nil]
      have herr2 : (procFiles a env rest r.fs r.tdone r.errs).errs = r.errs := by
        rw [h2, hd2, List.append_nil]
      have hgp1 : lastC inf = lastC outf := hgp (inf, outf) (List.mem_cons_self _ _)
      obtain ⟨hinv1, hdone1⟩ := procFile_no_err hd hc hgp1 hinv herr1
        (bool_eq_false hexn1)
      obtain ⟨hinvF, hdoneF, hpersF, hdirsF⟩ := ih r.fs r.tdone r.errs hinv1
        (fun pr hpr => hgp pr (List.mem_cons_of_mem _ hpr)) herr2 hexn
      refine ⟨hinvF, ?_, ?_, ?_⟩
      · intro pr hpr hrec
        rcases List.mem_cons.mp hpr with rfl | hpr2
        · rcases hdone1 hrec with hw | hw
          · exact Or.inl (by
              simp only [isfile_iff] at hw ⊢
              exact hpersF _ (hinv1 _ hw) hw)
          · exact Or.inr (by
              simp only [isfile_iff] at hw ⊢
              exact hpersF _ (hinv1 _ hw) hw)
        · exact hdoneF pr hpr2 hrec
      · intro w hsafe hw
        exact hpersF w hsafe (procFile_persist hd hc hsafe hw)
      · rw [hdirsF, procFile_dirs hd hc]

/-- Run-2 shape: every recognized file complete, nothing happens. -/
theorem procFiles_noop {a : Args} {env : Env}
    (hd : a.dryRun = false) (hc : a.clean = false) :
    ∀ (prs : List (Path × Path)) (fs : FS) (td : Nat) (errs : List Err),
      INVf fs → donePairs fs prs →
      (procFiles a env prs fs td errs).fs = fs ∧
      (procFiles a env prs fs td errs).evs = [] ∧
      (procFiles a env prs fs td errs).errs = errs ∧
      (procFiles a env prs fs td errs).exn = false := by
  intro prs
  induction prs with
  | nil => exact fun fs td errs _ _ => ⟨rfl, rfl, rfl, rfl⟩
  | cons pr rest ih =>
    intro fs td errs hinv hdone
    obtain ⟨inf, outf⟩ := pr
    obtain ⟨e1, e2, e3, e4⟩ := @procFile_noop a env fs td errs inf outf hd hc hinv
      (hdone (inf, outf) (List.mem_cons_self _ _))
    simp only [procFiles]
    rw [if_neg (by simp [e4])]
    obtain ⟨f1, f2, f3, f4⟩ := ih (procFile a env fs td errs inf outf).fs
      (procFile a env fs td errs inf outf).tdone
      (procFile a env fs td errs inf outf).errs
      (by rw [e1]; exact hinv)
      (by rw [e1]; exact fun pr hpr => hdone pr (List.mem_cons_of_mem _ hpr))
    refine ⟨f1.trans e1, ?_, f3.trans e3, f4⟩
    dsimp only
    rw [e2, f2]
    rfl

/-! ### One batch -/

theorem mkdirStep_fields (a : Args) (b : Batch) (st : WSt) :
    (mkdirStep a b st).fs.files = st.fs.files ∧
    (mkdirStep a b st).tdone = st.tdone ∧
    (mkdirStep a b st).errors = st.errors ∧
    (mkdirStep a b st).finished = st.finished := by
  unfold mkdirStep
  split
  · exact ⟨rfl, rfl, rfl, rfl⟩
  · split
    · exact ⟨rfl, rfl, rfl, rfl⟩
    · split
      · exact ⟨rfl, rfl, rfl, rfl⟩
      · exact ⟨by simp, rfl, rfl, rfl⟩

theorem mkdirStep_isdir {a : Args} {b : Batch} {st : WSt}
    (hd : a.dryRun = false) (hc : a.clean = false) :
    (mkdirStep a b st).fs.isdir b.newpath = true := by
  unfold mkdirStep
  split
  · assumption
  · rw [if_neg (by simp [hd]), if_neg (by simp [hc])]
    exact isdir_makedirs_self _ _

theorem mkdirStep_isdir_mono {a : Args} {b : Batch} {st : WSt} {q : Path}
    (h : st.fs.isdir q = true) : (mkdirStep a b st).fs.isdir q = true := by
  unfold mkdirStep
  split
  · exact h
  · split
    · exact h
    · split
      · exact h
      · exact isdir_makedirs_of _ h

theorem mkdirStep_of_isdir {a : Args} {b : Batch} {st : WSt}
    (h : st.fs.isdir b.newpath = true) : mkdirStep a b st = st := by
  unfold mkdirStep
  rw [if_pos h]

theorem procItem_errs {a : Args} {env : Env}
    (hd : a.dryRun = false) (hc : a.clean = false) (b : Batch) (st : WSt) :
    ∃ d, (procItem a env b st).errors = st.errors ++ d := by
  obtain ⟨-, -, herr1, -⟩ := mkdirStep_fields a b st
  obtain ⟨d, hld⟩ := procFiles_errs hd hc (b.infilenames.zip b.outfilenames)
    (mkdirStep a b st).fs (mkdirStep a b st).tdone (mkdirStep a b st).errors
  unfold procItem
  dsimp only
  by_cases hexn : (procFiles a env (b.infilenames.zip b.outfilenames)
      (mkdirStep a b st).fs (mkdirStep a b st).tdone
      (mkdirStep a b st).errors).exn = true
  · rw [if_pos hexn]
    exact ⟨d ++ [Err.unhandledException],
      by rw [hld, herr1, List.append_assoc]⟩
  · rw [if_neg hexn]
    exact ⟨d, by rw [hld, herr1]⟩

theorem procItem_no_err {a : Args} {env : Env} {b : Batch} {st : WSt}
    (hd : a.dryRun = false) (hc : a.clean = false)
    (hinv : INVf st.fs)
    (hgp : goodPairs (b.infilenames.zip b.outfilenames))
    (herr : (procItem a env b st).errors = st.errors) :
    INVf (procItem a env b st).fs ∧
    donePairs (procItem a env b st).fs (b.infilenames.zip b.outfilenames) ∧
    (∀ w, pathSafe w → w ∈ st.fs.files → w ∈ (procItem a env b st).fs.files) ∧
    (∀ q, st.fs.isdir q = true → (procItem a env b st).fs.isdir q = true) ∧
    (procItem a env b st).fs.isdir b.newpath = true := by
  obtain ⟨hfiles1, -, herr1, -⟩ := mkdirStep_fields a b st
  obtain ⟨d, hld⟩ := procFiles_errs hd hc (b.infilenames.zip b.outfilenames)
    (mkdirStep a b st).fs (mkdirStep a b st).tdone (mkdirStep a b st).errors
  unfold procItem at herr ⊢
  dsimp only at herr ⊢
  by_cases hexn : (procFiles a env (b.infilenames.zip b.outfilenames)
      (mkdirStep a b st).fs (mkdirStep a b st).tdone
      (mkdirStep a b st).errors).exn = true
  · rw [if_pos hexn] at herr
    rw [hld, herr1, List.append_assoc] at herr
    have h0 : st.errors ++ (d ++ [Err.unhandledException]) = st.errors ++ [] := by
      rw [List.append_nil]
      exact herr
    have := List.append_cancel_left h0
    exact absurd this (by simp)
  · rw [if_neg hexn] at herr
    rw [hld, herr1] at herr
    have hd0 : d = [] := by
      have h0 : st.errors ++ d = st.errors ++ [] := by simpa using herr
      exact List.append_cancel_left h0
    have herrL : (procFiles a env (b.infilenames.zip b.outfilenames)
        (mkdirStep a b st).fs (mkdirStep a b st).tdone
        (mkdirStep a b st).errors).errs = (mkdirStep a b st).errors := by
      rw [hld, hd0, List.append_nil]
    have hinv1 : INVf (mkdirStep a b st).fs := by
      intro p hp
      rw [hfiles1] at hp
      exact hinv p hp
    obtain ⟨hinvF, hdoneF, hpersF, hdirsF⟩ := procFiles_no_err hd hc
      (b.infilenames.zip b.outfilenames) (mkdirStep a b st).fs
      (mkdirStep a b st).tdone (mkdirStep a b st).errors hinv1 hgp herrL
      (bool_eq_false hexn)
    refine ⟨hinvF, hdoneF, ?_, ?_, ?_⟩
    · intro w hsafe hw
      refine hpersF w hsafe ?_
      rw [hfiles1]
      exact hw
    · intro q hq
      have h1 : (mkdirStep a b st).fs.isdir q = true := mkdirStep_isdir_mono hq
      simp only [FS.isdir] at h1 ⊢
      rw [hdirsF]
      exact h1
    · have h1 : (mkdirStep a b st).fs.isdir b.newpath = true :=
        mkdirStep_isdir hd hc
      simp only [FS.isdir] at h1 ⊢
      rw [hdirsF]
      exact h1

theorem procItem_noop {a : Args} {env : Env} {b : Batch} {st : WSt}
    (hd : a.dryRun = false) (hc : a.clean = false)
    (hinv : INVf st.fs)
    (hdone : donePairs st.fs (b.infilenames.zip b.outfilenames))
    (hdir : st.fs.isdir b.newpath = true) :
    (procItem a env b st).fs = st.fs ∧
    (procItem a env b st).errors = st.errors ∧
    (procItem a env b st).events = st.events ∧
    (procItem a env b st).finished = st.finished := by
  obtain ⟨f1, f2, f3, f4⟩ := @procFiles_noop a env hd hc
    (b.infilenames.zip b.outfilenames) st.fs st.tdone st.errors hinv hdone
  unfold procItem
  rw [mkdirStep_of_isdir hdir]
  dsimp only
  rw [if_neg (by simp [f4])]
  exact ⟨f1, f3, by rw [f2]; exact List.append_nil _, rfl⟩

/-! ### The worker loop -/

theorem runWorker_errs {a : Args} {env : Env}
    (hd : a.dryRun = false) (hc : a.clean = false) :
    ∀ (items : List WorkItem) (st : WSt),
      ∃ d, (runWorker a env items st).errors = st.errors ++ d := by
  intro items
  induction items with
  | nil => exact fun st => ⟨[], by simp [runWorker]⟩
  | cons it rest ih =>
    intro st
    cases it with
    | sentinel => exact ⟨[], by simp [runWorker]⟩
    | batch b =>
      obtain ⟨d1, h1⟩ := procItem_errs hd hc b st
      obtain ⟨d2, h2⟩ := ih (procItem a env b st)
      exact ⟨d1 ++ d2, by
        simp only [runWorker]
        rw [h2, h1, List.append_assoc]⟩

theorem runWorker_no_err {a : Args} {env : Env}
    (hd : a.dryRun = false) (hc : a.clean = false) :
    ∀ (items : List WorkItem) (st : WSt),
      INVf st.fs →
      (∀ b ∈ preSentinel items, goodPairs (b.infilenames.zip b.outfilenames)) →
      (runWorker a env items st).errors = st.errors →
      INVf (runWorker a env items st).fs ∧
      (∀ w, pathSafe w → w ∈ st.fs.files →
        w ∈ (runWorker a env items st).fs.files) ∧
      (∀ q, st.fs.isdir q = true →
        (runWorker a env items st).fs.isdir q = true) ∧
      (∀ b ∈ preSentinel items,
        (runWorker a env items st).fs.isdir b.newpath = true ∧
        donePairs (runWorker a env items st).fs
          (b.infilenames.zip b.outfilenames)) := by
  intro items
  induction items with
  | nil =>
    intro st hinv _ _
    exact ⟨hinv, fun w _ h => h, fun q h => h,
      fun b hb => absurd hb (List.not_mem_nil _)⟩
  | cons it rest ih =>
    intro st hinv hgp herr
    cases it with
    | sentinel =>
      simp only [runWorker, preSentinel] at *
      exact ⟨hinv, fun w _ h => h, fun q h => h,
        fun b hb => absurd hb (List.not_mem_nil _)⟩
    | batch b =>
      simp only [preSentinel] at hgp
      simp only [runWorker] at herr ⊢
      obtain ⟨d1, h1⟩ := procItem_errs hd hc b st
      obtain ⟨d2, h2⟩ := runWorker_errs hd hc rest (procItem a env b st)
      have h0 : st.errors ++ (d1 ++ d2) = st.errors ++ [] := by
        rw [← List.append_assoc, ← h1, ← h2]
        simpa using herr
      have hd12 := List.append_cancel_left h0
      have hd1 : d1 = [] := (List.append_eq_nil.mp hd12).1
      have hd2 : d2 = [] := (List.append_eq_nil.mp hd12).2
      have herr1 : (procItem a env b st).errors = st.errors := by
        rw [h1, hd1, List.append_nil]
      have herr2 : (runWorker a env rest (procItem a env b st)).errors =
          (procItem a env b st).errors := by
        rw [h2, hd2, List.append_nil]
      have hgpb := hgp b (List.mem_cons_self _ _)
      obtain ⟨hinv1, hdone1, hpers1, hdirs1, hnew1⟩ :=
        procItem_no_err hd hc hinv hgpb herr1
      obtain ⟨hinvF, hpersF, hdirsF, hbF⟩ := ih (procItem a env b st) hinv1
        (fun b' hb' => hgp b' (List.mem_cons_of_mem _ hb')) herr2
      refine ⟨hinvF, ?_, ?_, ?_⟩
      · exact fun w hs hw => hpersF w hs (hpers1 w hs hw)
      · exact fun q hq => hdirsF q (hdirs1 q hq)
      · intro b' hb'
        simp only [preSentinel, List.mem_cons] at hb'
        rcases hb' with rfl | hb2
        · refine ⟨hdirsF _ hnew1, ?_⟩
          intro pr hpr hrec
          rcases hdone1 pr hpr hrec with hw | hw
          · refine Or.inl ?_
            simp only [isfile_iff] at hw ⊢
            exact hpersF _ (hinv1 _ hw) hw
          · refine Or.inr ?_
            simp only [isfile_iff] at hw ⊢
            exact hpersF _ (hinv1 _ hw) hw
        · exact hbF b' hb2

theorem runWorker_noop {a : Args} {env : Env}
    (hd : a.dryRun = false) (hc : a.clean = false) :
    ∀ (items : List WorkItem) (st : WSt),
      INVf st.fs →
      (∀ b ∈ preSentinel items,
        st.fs.isdir b.newpath = true ∧
        donePairs st.fs (b.infilenames.zip b.outfilenames)) →
      (runWorker a env items st).fs = st.fs ∧
      (runWorker a env items st).errors = st.errors ∧
      (runWorker a env items st).events = st.events := by
  intro items
  induction items with
  | nil => exact fun st _ _ => ⟨rfl, rfl, rfl⟩
  | cons it rest ih =>
    intro st hinv hb
    cases it with
    | sentinel => exact ⟨rfl, rfl, rfl⟩
    | batch b =>
      simp only [preSentinel] at hb
      obtain ⟨hbd, hbdone⟩ := hb b (List.mem_cons_self _ _)
      obtain ⟨p1, p2, p3, -⟩ := procItem_noop hd hc hinv hbdone hbd
      obtain ⟨q1, q2, q3⟩ := ih (procItem a env b st)
        (by rw [p1]; exact hinv)
        (by rw [p1]
            exact fun b' hb' => hb b' (List.mem_cons_of_mem _ hb'))
      simp only [runWorker]
      exact ⟨q1.trans p1, q2.trans p2, q3.trans p3⟩

/-! ### The enumerator's stream -/

theorem preSentinel_stream (bs : List Batch) (n : Nat) :
    preSentinel (bs.map WorkItem.batch ++
      List.replicate n WorkItem.sentinel) = bs := by
  induction bs with
  | nil =>
    cases n with
    | zero => rfl
    | succ m => rfl
  | cons b rest ih =>
    simp only [List.map_cons, List.cons_append, preSentinel, List.append_eq, ih]

theorem batchesFn_goodPairs {indir outdir : Path} {w : WalkList} {b : Batch}
    (hb : b ∈ batchesFn indir outdir w) :
    goodPairs (b.infilenames.zip b.outfilenames) := by
  unfold batchesFn at hb
  obtain ⟨e, -, he⟩ := List.mem_filterMap.mp hb
  split at he
  · exact absurd he (by simp)
  · obtain rfl : toBatch indir outdir e = b := by injection he
    unfold toBatch goodPairs
    intro pr hpr
    dsimp only at hpr
    rw [List.zip_map'] at hpr
    obtain ⟨fn, -, rfl⟩ := List.mem_map.mp hpr
    dsimp only
    rw [lastC_concat, lastC_concat]

theorem checkArgsFS_isdir (outdir : Path) (fs : FS) :
    (checkArgsFS outdir fs).isdir outdir = true := by
  unfold checkArgsFS
  split
  · assumption
  · exact isdir_makedirs_self _ _

theorem checkArgsFS_files (outdir : Path) (fs : FS) :
    (checkArgsFS outdir fs).files = fs.files := by
  unfold checkArgsFS
  split
  · rfl
  · rfl

theorem checkArgsFS_of_isdir {outdir : Path} {fs : FS}
    (h : fs.isdir outdir = true) : checkArgsFS outdir fs = fs := by
  unfold checkArgsFS
  rw [if_pos h]

/-- The core of the idempotence analysis: starting with an empty output
tree, a run that records no errors leaves a file system on which a second
run changes nothing, emits no events and records no errors. -/
theorem pipelineRerun (a : Args) (env : Env) (indir outdir : Path)
    (w : WalkList) (dirs0 : List Path)
    (hd : a.dryRun = false) (hc : a.clean = false)
    (h1 : (pipelineRun a env indir outdir w ⟨[], dirs0⟩).errors = []) :
    (pipelineRun a env indir outdir w
        (pipelineRun a env indir outdir w ⟨[], dirs0⟩).fs).fs =
      (pipelineRun a env indir outdir w ⟨[], dirs0⟩).fs ∧
    (pipelineRun a env indir outdir w
        (pipelineRun a env indir outdir w ⟨[], dirs0⟩).fs).events = [] ∧
    (pipelineRun a env indir outdir w
        (pipelineRun a env indir outdir w ⟨[], dirs0⟩).fs).errors = [] := by
  have hinit : INVf (initWSt (checkArgsFS outdir ⟨[], dirs0⟩)).fs := by
    intro p hp
    rw [show (initWSt (checkArgsFS outdir ⟨[], dirs0⟩)).fs =
        checkArgsFS outdir ⟨[], dirs0⟩ from rfl, checkArgsFS_files] at hp
    exact absurd hp (List.not_mem_nil _)
  have hgp : ∀ b ∈ preSentinel (filenamesStream indir outdir w a.numWorkers),
      goodPairs (b.infilenames.zip b.outfilenames) := by
    intro b hb
    rw [filenamesStream, preSentinel_stream] at hb
    exact batchesFn_goodPairs hb
  have herr : (runWorker a env (filenamesStream indir outdir w a.numWorkers)
      (initWSt (checkArgsFS outdir ⟨[], dirs0⟩))).errors =
      (initWSt (checkArgsFS outdir ⟨[], dirs0⟩)).errors := h1
  obtain ⟨hinvF, hpersF, hdirsF, hbF⟩ := runWorker_no_err hd hc
    (filenamesStream indir outdir w a.numWorkers)
    (initWSt (checkArgsFS outdir ⟨[], dirs0⟩)) hinit hgp herr
  have hod : (pipelineRun a env indir outdir w ⟨[], dirs0⟩).fs.isdir outdir
      = true :=
    hdirsF outdir (checkArgsFS_isdir _ _)
  have hck : checkArgsFS outdir
      (pipelineRun a env indir outdir w ⟨[], dirs0⟩).fs =
      (pipelineRun a env indir outdir w ⟨[], dirs0⟩).fs :=
    checkArgsFS_of_isdir hod
  have hb2 : ∀ b ∈ preSentinel (filenamesStream indir outdir w a.numWorkers),
      (initWSt (pipelineRun a env indir outdir w
        ⟨[], dirs0⟩).fs).fs.isdir b.newpath = true ∧
      donePairs (initWSt (pipelineRun a env indir outdir w ⟨[], dirs0⟩).fs).fs
        (b.infilenames.zip b.outfilenames) :=
    fun b hb => hbF b hb
  obtain ⟨q1, q2, q3⟩ := runWorker_noop hd hc
    (filenamesStream indir outdir w a.numWorkers)
    (initWSt (pipelineRun a env indir outdir w ⟨[], dirs0⟩).fs) hinvF hb2
  refine ⟨?_, ?_, ?_⟩
  · show (runWorker a env (filenamesStream indir outdir w a.numWorkers)
      (initWSt (checkArgsFS outdir
        (pipelineRun a env indir outdir w ⟨[], dirs0⟩).fs))).fs = _
    rw [hck]
    exact q1
  · show (runWorker a env (filenamesStream indir outdir w a.numWorkers)
      (initWSt (checkArgsFS outdir
        (pipelineRun a env indir outdir w ⟨[], dirs0⟩).fs))).events = []
    rw [hck]
    exact q3
  · show (runWorker a env (filenamesStream indir outdir w a.numWorkers)
      (initWSt (checkArgsFS outdir
        (pipelineRun a env indir outdir w ⟨[], dirs0⟩).fs))).errors = []
    rw [hck]
    exact q2

/-! ### Disjointness of the enumerator's batches -/

theorem pairwise_filterMap_of {α β : Type} {R : β → β → Prop}
    {S : α → α → Prop} (f : α → Option β)
    (h : ∀ a b x y, S a b → f a = some x → f b = some y → R x y) :
    ∀ {l : List α}, l.Pairwise S → (l.filterMap f).Pairwise R := by
  intro l hl
  induction hl with
  | nil => simp
  | @cons a rest hhead htail ih =>
    rw [List.filterMap_cons]
    cases hfa : f a with
    | none => exact ih
    | some x =>
      refine List.Pairwise.cons ?_ ih
      intro y hy
      obtain ⟨b, hb, hfb⟩ := List.mem_filterMap.mp hy
      exact h a b x y (hhead b hb) hfa hfb

theorem batchesFn_eq_map_filter (indir outdir : Path) (w : WalkList) :
    batchesFn indir outdir w =
      (w.filter (fun e => !e.files.isEmpty)).map (toBatch indir outdir) := by
  induction w with
  | nil => rfl
  | cons e rest ih =>
    unfold batchesFn at ih ⊢
    rw [List.filterMap_cons, List.filter_cons]
    cases he : e.files.isEmpty with
    | true => simpa [he] using ih
    | false => simpa [he] using ih

theorem procFiles_dirs {a : Args} {env : Env}
    (hd : a.dryRun = false) (hc : a.clean = false) :
    ∀ (prs : List (Path × Path)) (fs : FS) (td : Nat) (errs : List Err),
      (procFiles a env prs fs td errs).fs.dirs = fs.dirs := by
  intro prs
  induction prs with
  | nil => exact fun fs td errs => rfl
  | cons pr rest ih =>
    intro fs td errs
    obtain ⟨inf, outf⟩ := pr
    simp only [procFiles]
    by_cases hexn : (procFile a env fs td errs inf outf).exn = true
    · rw [if_pos hexn]
      exact procFile_dirs hd hc
    · rw [if_neg hexn]
      dsimp only
      rw [ih, procFile_dirs hd hc]

/-- A worker creates the output directory of every batch it processes. -/
theorem procItem_isdir_newpath {a : Args} {env : Env} {b : Batch} {st : WSt}
    (hd : a.dryRun = false) (hc : a.clean = false) :
    (procItem a env b st).fs.isdir b.newpath = true := by
  unfold procItem
  dsimp only
  have h1 : (mkdirStep a b st).fs.isdir b.newpath = true := mkdirStep_isdir hd hc
  simp only [FS.isdir] at h1 ⊢
  rw [procFiles_dirs hd hc]
  exact h1

/-! ### Sample data used by concrete witnesses and counterexamples -/

/-! ### The claims -/

/-- C4: after two consecutive puts to the status mailbox with no
intervening get, the queue holds exactly one deliverable item, namely the
second one put, and indeed any put leaves the queue at size one. -/
theorem c4_mailbox_overwrite {α : Type} (q : List α) (x y : α) :
    statePut (statePut q x) y = [y] ∧
    (statePut (statePut q x) y).length = 1 ∧
    ∀ (r : List α) (z : α), (statePut r z).length = 1 := by
  have hdrain : ∀ (l : List α), drainLoop l = [] := by
    intro l
    induction l with
    | nil => rfl
    | cons h t ih => exact ih
  refine ⟨?_, ?_, ?_⟩
  · rw [statePut, hdrain]
    rfl
  · rw [statePut, hdrain]
    rfl
  · intro r z
    rw [statePut, hdrain]
    rfl

/-- C9: the already-complete check also skips a file whose own output path
is absent when a sibling with the same base name and `.mp3` extension
exists: nothing is removed, invoked, copied, renamed or recorded. -/
theorem c9_skip_on_sibling_mp3 (a : Args) (env : Env) (fs : FS) (td : Nat)
    (errs : List Err) (inf outf : Path)
    (_houtf : fs.isfile outf = false)
    (hmp3 : fs.isfile (mp3Path outf) = true) :
    (procFile a env fs td errs inf outf).fs = fs ∧
    (procFile a env fs td errs inf outf).evs = [] ∧
    (procFile a env fs td errs inf outf).errs = errs ∧
    (procFile a env fs td errs inf outf).exn = false := by
  rw [procFile_skip (Or.inr hmp3)]
  exact ⟨rfl, rfl, rfl, rfl⟩

/-- C9 witness: a `x.wav` input whose run produced `out/x.mp3` is skipped
on rerun although `out/x.wav` never exists. -/
theorem c9_skip_on_sibling_mp3_witness :
    ((⟨[exOut ++ [exMp3]], []⟩ : FS).isfile (exOut ++ [exWav]) = false ∧
     (⟨[exOut ++ [exMp3]], []⟩ : FS).isfile (mp3Path (exOut ++ [exWav])) = true) ∧
    (procFile exArgs envOKx ⟨[exOut ++ [exMp3]], []⟩ 0 [] (exIn ++ [exWav])
        (exOut ++ [exWav])).fs = ⟨[exOut ++ [exMp3]], []⟩ ∧
    (procFile exArgs envOKx ⟨[exOut ++ [exMp3]], []⟩ 0 [] (exIn ++ [exWav])
        (exOut ++ [exWav])).evs = [] ∧
    (procFile exArgs envOKx ⟨[exOut ++ [exMp3]], []⟩ 0 [] (exIn ++ [exWav])
        (exOut ++ [exWav])).errs = [] ∧
    (procFile exArgs envOKx ⟨[exOut ++ [exMp3]], []⟩ 0 [] (exIn ++ [exWav])
        (exOut ++ [exWav])).exn = false :=
  ⟨⟨by decide, by decide⟩,
   c9_skip_on_sibling_mp3 exArgs envOKx ⟨[exOut ++ [exMp3]], []⟩ 0 []
     (exIn ++ [exWav]) (exOut ++ [exWav]) (by decide) (by decide)⟩

/-- C10: a dry run forces exactly one worker process regardless of the
configured worker count. -/
theorem c10_dry_run_single_worker (a : Args) (h : a.dryRun = true) :
    mainNumWorkers a = 1 ∧ mainConsumerCount a = 1 := by
  unfold mainNumWorkers mainConsumerCount
  rw [if_pos h]
  constructor
  · rfl
  · rw [mainNumWorkers, if_pos h]
    rfl

/-- C10 witness: a dry-run configuration with eight configured workers
still creates a single consumer. -/
theorem c10_dry_run_single_worker_witness :
    (⟨true, false, 8⟩ : Args).dryRun = true ∧
    (mainNumWorkers ⟨true, false, 8⟩ = 1 ∧
     mainConsumerCount ⟨true, false, 8⟩ = 1) :=
  ⟨rfl, c10_dry_run_single_worker ⟨true, false, 8⟩ rfl⟩

/-- C1 counterexample: the external transcoder reports failure (non-zero
exit status) yet leaves its output file behind; the worker renames the
temporary file to the final path all the same, because the reported exit
status is never consulted.  The claimed "renames if and only if the
temporary path exists and the tool reported success" is therefore false at
this input. -/
theorem c1_counterexample :
    (envLameLiar.lame (exIn ++ [exMp3]) (wrkPath (exOut ++ [exMp3]))).success
      = false ∧
    Ev.renameE (wrkPath (exOut ++ [exMp3])) (mp3Path (exOut ++ [exMp3])) ∈
      (procFile exArgs envLameLiar ⟨[], []⟩ 0 [] (exIn ++ [exMp3])
        (exOut ++ [exMp3])).evs ∧
    (procFile exArgs envLameLiar ⟨[], []⟩ 0 [] (exIn ++ [exMp3])
        (exOut ++ [exMp3])).fs.isfile (mp3Path (exOut ++ [exMp3])) = true := by
  decide

theorem staleClean_snd {fs : FS} {p : Path} {e : Ev}
    (h : e ∈ (staleClean fs p).2) : e = Ev.rmFailed p := by
  unfold staleClean at h
  split at h
  · simpa using h
  · exact absurd h (List.not_mem_nil _)

theorem rename_not_mem_staleClean {fs : FS} {p s t : Path} :
    Ev.renameE s t ∉ (staleClean fs p).2 := by
  intro h
  exact absurd (staleClean_snd h) (by simp)

/-- C1 (amended): for every recognized file that is not skipped, in a
normal run in which the demux stage produced its output, the worker
renames the temporary work path to the final output path if and only if
the temporary path exists after the tool stage — the tool's reported exit
status is not consulted; and when the temporary path is absent, a
transcode-failure record is appended and no final output is created. -/
theorem c1_finalize_rename_iff_temp (a : Args) (env : Env) (fs : FS)
    (td : Nat) (errs : List Err) (inf outf : Path)
    (hd : a.dryRun = false) (hc : a.clean = false)
    (hs1 : fs.isfile outf = false) (hs2 : fs.isfile (mp3Path outf) = false)
    (hrec : recognized inf)
    (hfaad : extKeyP inf ∈ FAAD_EXT →
      (env.faad inf (wavPath outf)).creates = true) :
    ((Ev.renameE (wrkPath outf)
        (if extKeyP inf ∈ TRANS_EXT then mp3Path outf else outf) ∈
        (procFile a env fs td errs inf outf).evs) ↔
      (if extKeyP inf ∈ TRANS_EXT then
        (env.lame (if extKeyP inf ∈ FAAD_EXT then wavPath outf else inf)
          (wrkPath outf)).creates
       else true) = true) ∧
    ((if extKeyP inf ∈ TRANS_EXT then
        (env.lame (if extKeyP inf ∈ FAAD_EXT then wavPath outf else inf)
          (wrkPath outf)).creates
      else true) = false →
      (procFile a env fs td errs inf outf).errs =
        errs ++ [Err.transcodeError
          (if extKeyP inf ∈ FAAD_EXT then wavPath outf else inf)
          (if extKeyP inf ∈ TRANS_EXT then mp3Path outf else outf)] ∧
      (procFile a env fs td errs inf outf).fs.isfile
        (if extKeyP inf ∈ TRANS_EXT then mp3Path outf else outf) = false) := by
  by_cases hF : extKeyP inf ∈ FAAD_EXT
  · have hT := faad_mem_trans hF
    have hw := hfaad hF
    by_cases hcr : (env.lame (wavPath outf) (wrkPath outf)).creates = true
    · rw [procFile_m4a_ok hd hc hs1 hs2 hF hw hcr]
      simp only [hT, hF, if_true, hcr]
      refine ⟨by simp, fun hfalse => absurd hfalse (by simp)⟩
    · have hcr' := bool_eq_false hcr
      rw [procFile_m4a_lame_fail hd hc hs1 hs2 hF hw hcr']
      simp only [hT, hF, if_true, hcr']
      constructor
      · constructor
        · intro h
          exact absurd h (by simp [stale2, rename_not_mem_staleClean])
        · intro h
          exact absurd h (by simp)
      · intro _
        constructor
        · trivial
        · rw [isfile_eq_false]
          intro hmem
          obtain ⟨hmem2, -⟩ := mem_rmFile.mp hmem
          rcases mem_addFile.mp hmem2 with heq | hmem3
          · exact (mp3_ne_wav outf) heq
          · rw [isfile_eq_false] at hs2
            exact hs2 (staleClean_sub (staleClean_sub hmem3))
  · rcases hrec with hT | hI
    · rw [procFile_lame hd hc hs1 hs2 hT hF]
      simp only [hT, hF, if_true, if_false]
      by_cases hcr : (env.lame inf (wrkPath outf)).creates = true
      · rw [if_pos hcr]
        simp only [hcr]
        refine ⟨by simp, fun hfalse => absurd hfalse (by simp)⟩
      · have hcr' := bool_eq_false hcr
        rw [if_neg hcr]
        simp only [hcr']
        constructor
        · constructor
          · intro h
            exact absurd h (by simp [rename_not_mem_staleClean])
          · intro h
            exact absurd h (by simp)
        · intro _
          constructor
          · trivial
          · rw [isfile_eq_false]
            intro hmem
            rw [isfile_eq_false] at hs2
            exact hs2 (staleClean_sub hmem)
    · have hT : extKeyP inf ∉ TRANS_EXT := image_not_trans hI
      rw [procFile_image hd hc hs1 hs2 hI]
      simp only [hT, if_false]
      refine ⟨?_, fun hfalse => absurd hfalse (by simp)⟩
      simp

/-- C1 witness: an ordinary mp3 with a well-behaved transcoder is renamed
into place. -/
theorem c1_finalize_rename_iff_temp_witness :
    ((⟨[], []⟩ : FS).isfile (exOut ++ [exMp3]) = false ∧
     (⟨[], []⟩ : FS).isfile (mp3Path (exOut ++ [exMp3])) = false ∧
     recognized (exIn ++ [exMp3])) ∧
    ((Ev.renameE (wrkPath (exOut ++ [exMp3]))
        (if extKeyP (exIn ++ [exMp3]) ∈ TRANS_EXT then
          mp3Path (exOut ++ [exMp3]) else exOut ++ [exMp3]) ∈
        (procFile exArgs envOKx ⟨[], []⟩ 0 [] (exIn ++ [exMp3])
          (exOut ++ [exMp3])).evs) ↔
      (if extKeyP (exIn ++ [exMp3]) ∈ TRANS_EXT then
        (envOKx.lame
          (if extKeyP (exIn ++ [exMp3]) ∈ FAAD_EXT then
            wavPath (exOut ++ [exMp3]) else exIn ++ [exMp3])
          (wrkPath (exOut ++ [exMp3]))).creates
       else true) = true) :=
  ⟨⟨by decide, by decide, Or.inl (by decide)⟩,
   (c1_finalize_rename_iff_temp exArgs envOKx ⟨[], []⟩ 0 [] (exIn ++ [exMp3])
     (exOut ++ [exMp3]) rfl rfl (by decide) (by decide) (Or.inl (by decide))
     (fun h => by decide)).1⟩

/-- C2 counterexample: the transcoder produces no output for the only
file, so the first run records a failure and creates nothing; the second
run, on the output tree exactly as the first run left it, invokes the
transcoder once more — not zero times as claimed. -/
theorem c2_counterexample :
    transcodeEvCount (pipelineRun exArgs envLameNoOut exIn exOut exWalk1
      (pipelineRun exArgs envLameNoOut exIn exOut exWalk1 ⟨[], []⟩).fs).events
      = 1 ∧
    ¬ transcodeEvCount (pipelineRun exArgs envLameNoOut exIn exOut exWalk1
      (pipelineRun exArgs envLameNoOut exIn exOut exWalk1 ⟨[], []⟩).fs).events
      = 0 := by
  decide

/-- C2 (amended): starting from an empty output root, if the first run
records no errors then a second run over the unchanged input leaves the
output tree identical, performs zero transcoder invocations and zero file
copies, and records no errors. -/
theorem c2_second_run_noop (a : Args) (env : Env) (indir outdir : Path)
    (w : WalkList) (dirs0 : List Path)
    (hd : a.dryRun = false) (hc : a.clean = false)
    (h1 : (pipelineRun a env indir outdir w ⟨[], dirs0⟩).errors = []) :
    (pipelineRun a env indir outdir w
        (pipelineRun a env indir outdir w ⟨[], dirs0⟩).fs).fs =
      (pipelineRun a env indir outdir w ⟨[], dirs0⟩).fs ∧
    transcodeEvCount (pipelineRun a env indir outdir w
        (pipelineRun a env indir outdir w ⟨[], dirs0⟩).fs).events = 0 ∧
    copyEvCount (pipelineRun a env indir outdir w
        (pipelineRun a env indir outdir w ⟨[], dirs0⟩).fs).events = 0 ∧
    (pipelineRun a env indir outdir w
        (pipelineRun a env indir outdir w ⟨[], dirs0⟩).fs).errors = [] := by
  obtain ⟨hfs, hevs, herrs⟩ := pipelineRerun a env indir outdir w dirs0 hd hc h1
  refine ⟨hfs, ?_, ?_, herrs⟩
  · rw [hevs]
    rfl
  · rw [hevs]
    rfl

/-- C2 witness: a successful first run over one mp3, rerun afterwards. -/
theorem c2_second_run_noop_witness :
    (pipelineRun exArgs envOKx exIn exOut exWalk1 ⟨[], []⟩).errors = [] ∧
    ((pipelineRun exArgs envOKx exIn exOut exWalk1
        (pipelineRun exArgs envOKx exIn exOut exWalk1 ⟨[], []⟩).fs).fs =
      (pipelineRun exArgs envOKx exIn exOut exWalk1 ⟨[], []⟩).fs ∧
     transcodeEvCount (pipelineRun exArgs envOKx exIn exOut exWalk1
        (pipelineRun exArgs envOKx exIn exOut exWalk1 ⟨[], []⟩).fs).events = 0 ∧
     copyEvCount (pipelineRun exArgs envOKx exIn exOut exWalk1
        (pipelineRun exArgs envOKx exIn exOut exWalk1 ⟨[], []⟩).fs).events = 0 ∧
     (pipelineRun exArgs envOKx exIn exOut exWalk1
        (pipelineRun exArgs envOKx exIn exOut exWalk1 ⟨[], []⟩).fs).errors = []) :=
  ⟨by decide,
   c2_second_run_noop exArgs envOKx exIn exOut exWalk1 [] rfl rfl (by decide)⟩

theorem countP_staleClean_attempts (fs : FS) (p : Path) :
    (staleClean fs p).2.countP attemptP = 0 := by
  unfold staleClean
  split
  · rfl
  · rfl

/-- C3: when a stale temporary work artifact exists and no final output
does, a normal run first deletes the artifact — the very first event of
that file's processing — and then makes exactly one fresh attempt at the
file; the stale artifact is never used as output. -/
theorem c3_stale_cleanup_then_single_attempt (a : Args) (env : Env) (fs : FS)
    (td : Nat) (errs : List Err) (inf outf : Path)
    (hd : a.dryRun = false) (hc : a.clean = false)
    (hwrk : fs.isfile (wrkPath outf) = true)
    (houtf : fs.isfile outf = false)
    (hmp3 : fs.isfile (mp3Path outf) = false)
    (hrec : recognized inf) :
    ∃ rest, (procFile a env fs td errs inf outf).evs =
        Ev.rmFailed (wrkPath outf) :: rest ∧
      attemptEvCount (procFile a env fs td errs inf outf).evs = 1 := by
  have hsc : staleClean fs (wrkPath outf) =
      (fs.rmFile (wrkPath outf), [Ev.rmFailed (wrkPath outf)]) := by
    unfold staleClean
    rw [if_pos hwrk]
  by_cases hF : extKeyP inf ∈ FAAD_EXT
  · by_cases hw : (env.faad inf (wavPath outf)).creates = true
    · by_cases hcr : (env.lame (wavPath outf) (wrkPath outf)).creates = true
      · rw [procFile_m4a_ok hd hc houtf hmp3 hF hw hcr]
        refine ⟨(staleClean (fs.rmFile (wrkPath outf)) (wavPath outf)).2 ++
          [Ev.faadE inf (wavPath outf)] ++
          [Ev.lameE (wavPath outf) (wrkPath outf)] ++
          [Ev.rmWork (wavPath outf)] ++
          [Ev.renameE (wrkPath outf) (mp3Path outf)], ?_, ?_⟩
        · simp [stale2, hsc]
        · simp [attemptEvCount, stale2, hsc, List.countP_append,
            countP_staleClean_attempts, List.countP_cons, attemptP]
      · rw [procFile_m4a_lame_fail hd hc houtf hmp3 hF hw (bool_eq_false hcr)]
        refine ⟨(staleClean (fs.rmFile (wrkPath outf)) (wavPath outf)).2 ++
          [Ev.faadE inf (wavPath outf)] ++
          [Ev.lameE (wavPath outf) (wrkPath outf)] ++
          [Ev.rmWork (wavPath outf)], ?_, ?_⟩
        · simp [stale2, hsc]
        · simp [attemptEvCount, stale2, hsc, List.countP_append,
            countP_staleClean_attempts, List.countP_cons, attemptP]
    · rw [procFile_m4a_faad_fail hd hc houtf hmp3 hF (bool_eq_false hw)]
      refine ⟨(staleClean (fs.rmFile (wrkPath outf)) (wavPath outf)).2 ++
        [Ev.faadE inf (wavPath outf)] ++
        [Ev.lameE (wavPath outf) (wrkPath outf)] ++
        [Ev.rmWork (wavPath outf)], ?_, ?_⟩
      · simp [stale2, hsc]
      · simp [attemptEvCount, stale2, hsc, List.countP_append,
          countP_staleClean_attempts, List.countP_cons, attemptP]
  · rcases hrec with hT | hI
    · rw [procFile_lame hd hc houtf hmp3 hT hF]
      by_cases hcr : (env.lame inf (wrkPath outf)).creates = true
      · rw [if_pos hcr]
        refine ⟨[Ev.lameE inf (wrkPath outf),
          Ev.renameE (wrkPath outf) (mp3Path outf)], ?_, ?_⟩
        · simp [hsc]
        · simp [attemptEvCount, hsc, List.countP_append, List.countP_cons,
            attemptP]
      · rw [if_neg hcr]
        refine ⟨[Ev.lameE inf (wrkPath outf)], ?_, ?_⟩
        · simp [hsc]
        · simp [attemptEvCount, hsc, List.countP_append, List.countP_cons,
            attemptP]
    · rw [procFile_image hd hc houtf hmp3 hI]
      refine ⟨[Ev.copyE inf (wrkPath outf),
        Ev.renameE (wrkPath outf) outf], ?_, ?_⟩
      · simp [hsc]
      · simp [attemptEvCount, hsc, List.countP_append, List.countP_cons,
          attemptP]

/-- C3 witness: a stale `out/x.wrk` next to a pending `x.mp3`. -/
theorem c3_stale_cleanup_then_single_attempt_witness :
    ((⟨[wrkPath (exOut ++ [exMp3])], []⟩ : FS).isfile
        (wrkPath (exOut ++ [exMp3])) = true ∧
     (⟨[wrkPath (exOut ++ [exMp3])], []⟩ : FS).isfile (exOut ++ [exMp3]) = false ∧
     (⟨[wrkPath (exOut ++ [exMp3])], []⟩ : FS).isfile
        (mp3Path (exOut ++ [exMp3])) = false ∧
     recognized (exIn ++ [exMp3])) ∧
    ∃ rest, (procFile exArgs envOKx ⟨[wrkPath (exOut ++ [exMp3])], []⟩ 0 []
        (exIn ++ [exMp3]) (exOut ++ [exMp3])).evs =
        Ev.rmFailed (wrkPath (exOut ++ [exMp3])) :: rest ∧
      attemptEvCount (procFile exArgs envOKx ⟨[wrkPath (exOut ++ [exMp3])], []⟩
        0 [] (exIn ++ [exMp3]) (exOut ++ [exMp3])).evs = 1 :=
  ⟨⟨by decide, by decide, by decide, Or.inl (by decide)⟩,
   c3_stale_cleanup_then_single_attempt exArgs envOKx
     ⟨[wrkPath (exOut ++ [exMp3])], []⟩ 0 [] (exIn ++ [exMp3])
     (exOut ++ [exMp3]) rfl rfl (by decide) (by decide) (by decide)
     (Or.inl (by decide))⟩

/-- C7: when an unexpected exception escapes the handling of one dequeued
batch, the worker records an unhandled-fault error record and proceeds to
the next queue item instead of terminating. -/
theorem c7_worker_continues_after_fault (a : Args) (env : Env) (b : Batch)
    (rest : List WorkItem) (st : WSt)
    (hexn : (procFiles a env (b.infilenames.zip b.outfilenames)
      (mkdirStep a b st).fs (mkdirStep a b st).tdone
      (mkdirStep a b st).errors).exn = true) :
    runWorker a env (WorkItem.batch b :: rest) st =
      runWorker a env rest (procItem a env b st) ∧
    (procItem a env b st).errors =
      (procFiles a env (b.infilenames.zip b.outfilenames)
        (mkdirStep a b st).fs (mkdirStep a b st).tdone
        (mkdirStep a b st).errors).errs ++ [Err.unhandledException] := by
  constructor
  · rfl
  · unfold procItem
    dsimp only
    rw [if_pos hexn]

/-- C7 witness: an m4a batch whose demux fails makes the cleanup raise;
the worker records the fault and still consumes its sentinel. -/
theorem c7_worker_continues_after_fault_witness :
    (procFiles exArgs envFaadFail
      (exFaultBatch.infilenames.zip exFaultBatch.outfilenames)
      (mkdirStep exArgs exFaultBatch (initWSt ⟨[], []⟩)).fs
      (mkdirStep exArgs exFaultBatch (initWSt ⟨[], []⟩)).tdone
      (mkdirStep exArgs exFaultBatch (initWSt ⟨[], []⟩)).errors).exn = true ∧
    (runWorker exArgs envFaadFail
        (WorkItem.batch exFaultBatch :: [WorkItem.sentinel]) (initWSt ⟨[], []⟩) =
      runWorker exArgs envFaadFail [WorkItem.sentinel]
        (procItem exArgs envFaadFail exFaultBatch (initWSt ⟨[], []⟩)) ∧
     (procItem exArgs envFaadFail exFaultBatch (initWSt ⟨[], []⟩)).errors =
      (procFiles exArgs envFaadFail
        (exFaultBatch.infilenames.zip exFaultBatch.outfilenames)
        (mkdirStep exArgs exFaultBatch (initWSt ⟨[], []⟩)).fs
        (mkdirStep exArgs exFaultBatch (initWSt ⟨[], []⟩)).tdone
        (mkdirStep exArgs exFaultBatch (initWSt ⟨[], []⟩)).errors).errs ++
        [Err.unhandledException]) :=
  ⟨by decide,
   c7_worker_continues_after_fault exArgs envFaadFail exFaultBatch
     [WorkItem.sentinel] (initWSt ⟨[], []⟩) (by decide)⟩

/-- C8 counterexample: the input tree has a subdirectory `a` containing no
files; it produces no batch (as claimed), but contrary to the claim it is
never created in the output tree — neither before the stream begins nor at
any later point of the whole run. -/
theorem c8_counterexample :
    batchesFn exIn exOut exWalkEmptyDirs = [] ∧
    (pipelineRun exArgs envOKx exIn exOut exWalkEmptyDirs ⟨[], []⟩).fs.isdir
      (exOut ++ [['a']]) = false := by
  decide

/-- C8 (amended): the enumerator yields exactly one batch per walked
directory that contains at least one file — directories with only
subdirectories produce no batch — and output directories are created
lazily, by the worker as it processes each batch (a recursive create of
the batch's output directory), not as a prerequisite step before the
stream begins. -/
theorem c8_one_batch_per_nonempty_dir (indir outdir : Path) (w : WalkList)
    (a : Args) (env : Env) (b : Batch) (st : WSt)
    (hd : a.dryRun = false) (hc : a.clean = false) :
    batchesFn indir outdir w =
      (w.filter (fun e => !e.files.isEmpty)).map (toBatch indir outdir) ∧
    (procItem a env b st).fs.isdir b.newpath = true :=
  ⟨batchesFn_eq_map_filter indir outdir w, procItem_isdir_newpath hd hc⟩

/-- C8 witness: concrete batches over a two-directory walk, and the output
directory of a processed batch exists afterwards. -/
theorem c8_one_batch_per_nonempty_dir_witness :
    (exArgs.dryRun = false ∧ exArgs.clean = false) ∧
    (batchesFn exIn exOut exWalk2 =
      (exWalk2.filter (fun e => !e.files.isEmpty)).map (toBatch exIn exOut) ∧
     (procItem exArgs envOKx exFaultBatch (initWSt ⟨[], []⟩)).fs.isdir
       exFaultBatch.newpath = true) :=
  ⟨⟨rfl, rfl⟩,
   c8_one_batch_per_nonempty_dir exIn exOut exWalk2 exArgs envOKx
     exFaultBatch (initWSt ⟨[], []⟩) rfl rfl⟩

/-- C5: over any walk in which every directory is listed once, the output
path sets of any two distinct batches are disjoint. -/
theorem c5_batches_output_disjoint (indir outdir : Path) (w : WalkList)
    (hwf : WalkWf w = true) :
    (batchesFn indir outdir w).Pairwise
      (fun b1 b2 => ∀ p ∈ b1.outfilenames, p ∉ b2.outfilenames) := by
  have hnd : (w.map (fun e => e.relpath)).Nodup := of_decide_eq_true hwf
  have hpw : w.Pairwise (fun e1 e2 => e1.relpath ≠ e2.relpath) :=
    List.pairwise_map.mp hnd
  unfold batchesFn
  refine pairwise_filterMap_of _ ?_ hpw
  intro e1 e2 b1 b2 hne hf1 hf2
  split at hf1
  · exact absurd hf1 (by simp)
  · split at hf2
    · exact absurd hf2 (by simp)
    · obtain rfl := Option.some.inj hf1
      obtain rfl := Option.some.inj hf2
      intro p hp1 hp2
      unfold toBatch at hp1 hp2
      dsimp only at hp1 hp2
      obtain ⟨fn1, -, rfl⟩ := List.mem_map.mp hp1
      obtain ⟨fn2, -, heq⟩ := List.mem_map.mp hp2
      obtain ⟨h3, -⟩ := List.append_inj' heq (by simp)
      exact hne (List.append_cancel_left h3).symm

/-- C5 witness: the two batches of a two-directory walk are disjoint. -/
theorem c5_batches_output_disjoint_witness :
    WalkWf exWalk2 = true ∧
    (batchesFn exIn exOut exWalk2).Pairwise
      (fun b1 b2 => ∀ p ∈ b1.outfilenames, p ∉ b2.outfilenames) :=
  ⟨by decide, c5_batches_output_disjoint exIn exOut exWalk2 (by decide)⟩

/-- C6: the enumerator's stream is a finite list consisting of all the
batches followed by exactly `numWorkers` end-of-work markers: its length
is the batch count plus the worker count, it holds exactly `numWorkers`
markers, and every marker occurs after every real batch. -/
theorem c6_stream_batches_then_markers (indir outdir : Path) (w : WalkList)
    (n : Nat) :
    (filenamesStream indir outdir w n).length =
      (batchesFn indir outdir w).length + n ∧
    (filenamesStream indir outdir w n).countP WorkItem.isEOW = n ∧
    (∀ (i j : Nat) (b : Batch),
      (filenamesStream indir outdir w n)[i]? = some (WorkItem.batch b) →
      (filenamesStream indir outdir w n)[j]? = some WorkItem.sentinel →
      i < j) := by
  refine ⟨?_, ?_, ?_⟩
  · simp [filenamesStream]
  · rw [filenamesStream, List.countP_append, List.countP_replicate]
    have h1 : (List.map WorkItem.batch
        (batchesFn indir outdir w)).countP WorkItem.isEOW = 0 := by
      rw [List.countP_eq_zero]
      intro x hx
      obtain ⟨bb, -, rfl⟩ := List.mem_map.mp hx
      simp [WorkItem.isEOW]
    rw [h1]
    simp [WorkItem.isEOW]
  · intro i j b hbi hsj
    rw [filenamesStream, List.getElem?_append] at hbi hsj
    by_cases hi : i < (List.map WorkItem.batch (batchesFn indir outdir w)).length
    · by_cases hj : j < (List.map WorkItem.batch (batchesFn indir outdir w)).length
      · rw [if_pos hj, List.getElem?_map] at hsj
        cases hb : (batchesFn indir outdir w)[j]? with
        | none => rw [hb] at hsj; exact absurd hsj (by simp)
        | some bb => rw [hb] at hsj; exact absurd hsj (by simp)
      · omega
    · rw [if_neg hi, List.getElem?_replicate] at hbi
      by_cases hlt : i - (List.map WorkItem.batch
          (batchesFn indir outdir w)).length < n
      · rw [if_pos hlt] at hbi
        exact absurd hbi (by simp)
      · rw [if_neg hlt] at hbi
        exact absurd hbi (by simp)

/-- C6 witness: in the one-batch, one-worker stream the batch sits at
index zero and the marker at index one. -/
theorem c6_stream_batches_then_markers_witness :
    (filenamesStream exIn exOut exWalk1 1)[0]? =
      some (WorkItem.batch (toBatch exIn exOut ⟨[], [exMp3]⟩)) ∧
    (filenamesStream exIn exOut exWalk1 1)[1]? = some WorkItem.sentinel ∧
    0 < 1 :=
  ⟨by decide, by decide,
   (c6_stream_batches_then_markers exIn exOut exWalk1 1).2.2 0 1
     (toBatch exIn exOut ⟨[], [exMp3]⟩) (by decide) (by decide)⟩

end LameWalker
